import Mathlib

/-!
Verification of the transcript-intelligence core of the ai-tutor-board
repository: the growth engine (`transcript_intel/growth.py`) and the
heuristic transcript extractor (`transcript_intel/extractor/heuristic.py`).

Python floats are modelled as exact rationals (`ℚ`), Python ints as `ℤ`,
and the non-negative behavioral counters of a `TopicSignal` as `ℕ`.
Python's `round` (banker's rounding, round-half-to-even) is modelled by
`pyRound` below.
-/

namespace TutorBoard

/-- `clamp_int(value, lo, hi) = max(lo, min(hi, int(value)))` from growth.py. -/
def clampInt (value lo hi : ℤ) : ℤ := max lo (min hi value)

/-- `clamp_float(value, lo, hi) = max(lo, min(hi, float(value)))` from growth.py. -/
def clampQ (value lo hi : ℚ) : ℚ := max lo (min hi value)

/-- Python 3 `round` on a float with no digits argument: round to the nearest
integer, ties going to the even integer (banker's rounding). -/
def pyRound (q : ℚ) : ℤ :=
  if q - ⌊q⌋ < 1/2 then ⌊q⌋
  else if 1/2 < q - ⌊q⌋ then ⌊q⌋ + 1
  else if ⌊q⌋ % 2 = 0 then ⌊q⌋ else ⌊q⌋ + 1

/-- The `GrowthConfig` dataclass from growth.py: float weights become `ℚ`,
int bounds and mental-block parameters become `ℤ`.  Field defaults mirror
the dataclass defaults. -/
structure GrowthConfig where
  improvement_weight : ℚ := 1
  error_penalty : ℚ := 5/2
  repeated_error_penalty : ℚ := 4
  independent_bonus : ℚ := 2
  confidence_positive_weight : ℚ := 4
  confidence_negative_weight : ℚ := 6
  max_session_delta : ℤ := 12
  min_session_delta : ℤ := -12
  mental_block_session_threshold : ℤ := 3
  mental_block_base_severity : ℤ := 35
  mental_block_repeat_delta : ℤ := 15
  mental_block_avoidance_bonus : ℤ := 15
  deriving Repr, DecidableEq

/-- The default `GrowthConfig()` with all dataclass defaults. -/
def defaultConfig : GrowthConfig := {}

/-- The seven per-topic behavioral counters read out of the `signals` dict at
the top of `update_mastery_and_confidence`.  The data model declares them
all non-negative integers, hence `ℕ`. -/
structure Signals where
  attempt_count : ℕ := 0
  error_count : ℕ := 0
  repeated_error_count : ℕ := 0
  independent_count : ℕ := 0
  hint_count : ℕ := 0
  confidence_positive : ℕ := 0
  confidence_negative : ℕ := 0
  deriving Repr, DecidableEq

/-- `denom_errors = max(1, error_count)`. -/
def denomErrors (s : Signals) : ℕ := max 1 s.error_count

/-- `denom_attempts = max(1, attempt_count)`. -/
def denomAttempts (s : Signals) : ℕ := max 1 s.attempt_count

/-- `correction_speed = 1.0 / (1.0 + (hint_count / float(denom_errors)))`. -/
def correctionSpeed (s : Signals) : ℚ :=
  1 / (1 + (s.hint_count : ℚ) / (denomErrors s : ℚ))

/-- `independence = independent_count / float(denom_attempts)`. -/
def independence (s : Signals) : ℚ :=
  (s.independent_count : ℚ) / (denomAttempts s : ℚ)

/-- `improvement_factor = 10.0 * improvement_weight * correction_speed * independence`. -/
def improvementFactor (s : Signals) (c : GrowthConfig) : ℚ :=
  10 * c.improvement_weight * correctionSpeed s * independence s

/-- `repeated_error_penalty = config.repeated_error_penalty * repeated_error_count`. -/
def repeatedErrorPenaltyTerm (s : Signals) (c : GrowthConfig) : ℚ :=
  c.repeated_error_penalty * (s.repeated_error_count : ℚ)

/-- `error_penalty = config.error_penalty * error_count`. -/
def errorPenaltyTerm (s : Signals) (c : GrowthConfig) : ℚ :=
  c.error_penalty * (s.error_count : ℚ)

/-- `independent_bonus = config.independent_bonus * independent_count`. -/
def independentBonusTerm (s : Signals) (c : GrowthConfig) : ℚ :=
  c.independent_bonus * (s.independent_count : ℚ)

/-- `raw_delta = improvement_factor + independent_bonus - error_penalty - repeated_error_penalty`. -/
def rawDelta (s : Signals) (c : GrowthConfig) : ℚ :=
  improvementFactor s c + independentBonusTerm s c
    - errorPenaltyTerm s c - repeatedErrorPenaltyTerm s c

/-- `bounded_delta = clamp_float(raw_delta, min_session_delta, max_session_delta)`. -/
def boundedDelta (s : Signals) (c : GrowthConfig) : ℚ :=
  clampQ (rawDelta s c) (c.min_session_delta : ℚ) (c.max_session_delta : ℚ)

/-- `mastery_delta = int(round(bounded_delta))`. -/
def masteryDelta (s : Signals) (c : GrowthConfig) : ℤ :=
  pyRound (boundedDelta s c)

/-- `new_mastery = clamp_int(previous_mastery + mastery_delta, 0, 100)`. -/
def newMastery (previous_mastery : ℤ) (s : Signals) (c : GrowthConfig) : ℤ :=
  clampInt (previous_mastery + masteryDelta s c) 0 100

/-- `raw_conf_delta = confidence_pos*pos_w - confidence_neg*neg_w + 6*independence - 2*error_count`. -/
def rawConfDelta (s : Signals) (c : GrowthConfig) : ℚ :=
  (s.confidence_positive : ℚ) * c.confidence_positive_weight
    - (s.confidence_negative : ℚ) * c.confidence_negative_weight
    + 6 * independence s - 2 * (s.error_count : ℚ)

/-- `conf_delta = int(round(clamp_float(raw_conf_delta, -12.0, 12.0)))`. -/
def confDelta (s : Signals) (c : GrowthConfig) : ℤ :=
  pyRound (clampQ (rawConfDelta s c) (-12) 12)

/-- `new_confidence = clamp_int(previous_confidence + conf_delta, 0, 100)`. -/
def newConfidence (previous_confidence : ℤ) (s : Signals) (c : GrowthConfig) : ℤ :=
  clampInt (previous_confidence + confDelta s c) 0 100

/-- The `"delta_components"` sub-dict of the explanation record. -/
structure DeltaComponents where
  improvement_factor : ℚ
  independent_bonus : ℚ
  error_penalty : ℚ
  repeated_error_penalty : ℚ
  deriving Repr, DecidableEq

/-- The `"derived_signals"` sub-dict of the explanation record. -/
structure DerivedSignals where
  correction_speed : ℚ
  independence : ℚ
  deriving Repr, DecidableEq

/-- The explanation dict built by `update_mastery_and_confidence`, with one
field per dict key (nested dicts become nested structures). -/
structure Explanation where
  formula : String
  delta_components : DeltaComponents
  derived_signals : DerivedSignals
  bounded_delta : ℚ
  mastery_delta : ℤ
  confidence_delta : ℤ
  signals_used : Signals
  deriving Repr, DecidableEq

/-- The triple returned by `update_mastery_and_confidence`. -/
structure UpdateResult where
  new_mastery : ℤ
  new_confidence : ℤ
  explanation : Explanation
  deriving Repr, DecidableEq

/-- `update_mastery_and_confidence` from growth.py. -/
def update_mastery_and_confidence (previous_mastery previous_confidence : ℤ)
    (s : Signals) (c : GrowthConfig) : UpdateResult :=
  { new_mastery := newMastery previous_mastery s c
    new_confidence := newConfidence previous_confidence s c
    explanation :=
      { formula := "new = clamp(prev + round(delta), 0, 100)"
        delta_components :=
          { improvement_factor := improvementFactor s c
            independent_bonus := independentBonusTerm s c
            error_penalty := errorPenaltyTerm s c
            repeated_error_penalty := repeatedErrorPenaltyTerm s c }
        derived_signals :=
          { correction_speed := correctionSpeed s
            independence := independence s }
        bounded_delta := boundedDelta s c
        mastery_delta := masteryDelta s c
        confidence_delta := confDelta s c
        signals_used := s } }

/-- Every numeric leaf of the explanation record, as rationals (the field
order follows the dict layout).  Used to express "the record contains the
value v somewhere". -/
def explanationNums (e : Explanation) : List ℚ :=
  [e.delta_components.improvement_factor,
   e.delta_components.independent_bonus,
   e.delta_components.error_penalty,
   e.delta_components.repeated_error_penalty,
   e.derived_signals.correction_speed,
   e.derived_signals.independence,
   e.bounded_delta,
   (e.mastery_delta : ℚ),
   (e.confidence_delta : ℚ),
   (e.signals_used.attempt_count : ℚ),
   (e.signals_used.error_count : ℚ),
   (e.signals_used.repeated_error_count : ℚ),
   (e.signals_used.independent_count : ℚ),
   (e.signals_used.hint_count : ℚ),
   (e.signals_used.confidence_positive : ℚ),
   (e.signals_used.confidence_negative : ℚ)]

/-!
### Character/string utilities used by the heuristic extractor

The extractor's transcripts are ASCII text; Python's `\s`, `\w`, `\d`,
`.lower()` and string comparison are modelled on that ASCII scope.
-/

/-- Python regex `\s` / `str.strip` / `str.isspace` whitespace on ASCII text
(CPython's ASCII whitespace table): space, tab, newline, carriage return,
vertical tab, form feed, and the file/group/record/unit separators
`\x1c`-`\x1f`. -/
def isSpaceChar (ch : Char) : Bool :=
  ch = ' ' || ch = '\t' || ch = '\n' || ch = '\r' || ch = '\x0b' || ch = '\x0c' ||
  ch = '\x1c' || ch = '\x1d' || ch = '\x1e' || ch = '\x1f'

/-- Python regex `\w` on ASCII text: letters, digits, underscore. -/
def isWordChar (ch : Char) : Bool := ch.isAlphanum || ch = '_'

/-- Python regex `\d` on ASCII text. -/
def isDigitChar (ch : Char) : Bool := '0' ≤ ch && ch ≤ '9'

/-- `str.lower()` on ASCII text. -/
def lowerChar (ch : Char) : Char :=
  if 'A' ≤ ch ∧ ch ≤ 'Z' then Char.ofNat (ch.toNat + 32) else ch

def lowerStr (s : List Char) : List Char := s.map lowerChar

/-- Python `pat in s` (substring containment). -/
def isSubstr (pat : List Char) : List Char → Bool
  | [] => pat.isEmpty
  | c :: t => pat.isPrefixOf (c :: t) || isSubstr pat t

/-- Python `s.count(pat)` for a non-empty `pat`: non-overlapping occurrences,
scanning left to right and skipping `pat.length` characters after a match.
The scan is fuelled by the length of the string. -/
def countOccAux (pat : List Char) : ℕ → List Char → ℕ
  | 0, _ => 0
  | fuel + 1, s =>
    match s with
    | [] => 0
    | _ :: t =>
      if !pat.isEmpty && pat.isPrefixOf s then 1 + countOccAux pat fuel (s.drop pat.length)
      else countOccAux pat fuel t

def countOcc (pat s : List Char) : ℕ := countOccAux pat s.length s

/-- A `\b` boundary holds before a word character when the previous character
is absent or not a word character. -/
def boundaryBefore : Option Char → Bool
  | none => true
  | some ch => !isWordChar ch

/-- A `\b` boundary holds after a word character when the next character is
absent or not a word character. -/
def boundaryAfterOk : List Char → Bool
  | [] => true
  | ch :: _ => !isWordChar ch

/-- Strip a (lower-case) literal pattern off the front of `s`,
case-insensitively; return the rest on success. -/
def stripLowerPre (pat : List Char) (s : List Char) : Option (List Char) :=
  match pat, s with
  | [], r => some r
  | _ :: _, [] => none
  | p :: ps, ch :: cs => if lowerChar ch = p then stripLowerPre ps cs else none

/-- Search `s` for a case-insensitive literal token delimited by `\b` at both
ends (all tokens used below start and end with word characters, so both
boundaries are meaningful).  `prev` is the character just before the current
position. -/
def hasWordTokenFrom (pat : List Char) : Option Char → List Char → Bool
  | _, [] => false
  | prev, ch :: cs =>
    (boundaryBefore prev &&
      (match stripLowerPre pat (ch :: cs) with
       | some r => boundaryAfterOk r
       | none => false)) ||
    hasWordTokenFrom pat (some ch) cs

def anyWordToken (pats : List (List Char)) (s : List Char) : Bool :=
  pats.any (fun p => hasWordTokenFrom p none s)

/-- The apostrophe character, used inside several literal patterns. -/
def apoChar : Char := Char.ofNat 39

/-- `NEGATIVE_CONFIDENCE_PATTERNS` (the alternation `confus(ed|ing)` is
expanded into its two words). -/
def negConfidenceTokens : List (List Char) :=
  ["i don".data ++ apoChar :: "t know".data,
   "not sure".data, "confused".data, "confusing".data, "stuck".data,
   "i can".data ++ apoChar :: "t".data,
   "this is hard".data,
   "i".data ++ apoChar :: "m bad at".data]

/-- `POSITIVE_CONFIDENCE_PATTERNS` (`g(o|o)t it` is just `got it`). -/
def posConfidenceTokens : List (List Char) :=
  ["got it".data, "makes sense".data, "okay".data, "i understand".data,
   "that was easy".data]

/-- The tutor hint-cue alternation `\b(hint|remember|try|think about|let's)\b`. -/
def hintTokens : List (List Char) :=
  ["hint".data, "remember".data, "try".data, "think about".data,
   "let".data ++ apoChar :: "s".data]

def negConfMatch (s : List Char) : Bool := anyWordToken negConfidenceTokens s

def posConfMatch (s : List Char) : Bool := anyWordToken posConfidenceTokens s

def hintMatch (s : List Char) : Bool := anyWordToken hintTokens s

/-- `answerish_re = (=|\banswer\b|\bso\b|\btherefore\b)`: a literal `=`
anywhere, or one of three whole words. -/
def answerishLike (s : List Char) : Bool :=
  s.contains '=' || anyWordToken ["answer".data, "so".data, "therefore".data] s

/-- Match `\d+\s*/\s*\d+\b` at the current position, with the leading `\b`
expressed through `prev`.  Digit/space runs are taken greedily, which agrees
with the regex because the follow-up characters (`/`, digits, boundary)
cannot extend them. -/
def fracTokenAt (prev : Option Char) (s : List Char) : Bool :=
  let d1 := s.takeWhile isDigitChar
  let r1 := s.dropWhile isDigitChar
  if d1.isEmpty then false
  else
    boundaryBefore prev &&
    (match r1.dropWhile isSpaceChar with
     | '/' :: r3 =>
       let r4 := r3.dropWhile isSpaceChar
       let d2 := r4.takeWhile isDigitChar
       let r5 := r4.dropWhile isDigitChar
       !d2.isEmpty && boundaryAfterOk r5
     | _ => false)

def hasFracTokenFrom : Option Char → List Char → Bool
  | _, [] => false
  | prev, ch :: cs => fracTokenAt prev (ch :: cs) || hasFracTokenFrom (some ch) cs

/-- `re.search(r"\b\d+\s*/\s*\d+\b", s)`. -/
def hasFracToken (s : List Char) : Bool := hasFracTokenFrom none s

/-- Match `\d+(?:\.\d+)?\b` at the current position (with regex backtracking:
if the optional decimal part breaks the trailing boundary, it is dropped). -/
def digitsDotBoundary (s : List Char) : Bool :=
  let d1 := s.takeWhile isDigitChar
  let r1 := s.dropWhile isDigitChar
  !d1.isEmpty &&
    (match r1 with
     | '.' :: r2 =>
       let d2 := r2.takeWhile isDigitChar
       let r3 := r2.dropWhile isDigitChar
       (!d2.isEmpty && boundaryAfterOk r3) || boundaryAfterOk r1
     | _ => boundaryAfterOk r1)

/-- Match `\b-?\d+(?:\.\d+)?\b` at the current position.  When the optional
`-` is taken, the leading `\b` sits between `prev` and the non-word `-`, so it
requires `prev` to be a word character; otherwise it sits before a digit. -/
def numTokenAt (prev : Option Char) (s : List Char) : Bool :=
  match s with
  | '-' :: rest =>
    (match prev with
     | some p => isWordChar p
     | none => false) && digitsDotBoundary rest
  | _ => boundaryBefore prev && digitsDotBoundary s

def hasNumAnswerFrom : Option Char → List Char → Bool
  | _, [] => false
  | prev, ch :: cs =>
    fracTokenAt prev (ch :: cs) || numTokenAt prev (ch :: cs) ||
    hasNumAnswerFrom (some ch) cs

/-- `numeric_answer_re = \b\d+\s*/\s*\d+\b|\b-?\d+(?:\.\d+)?\b` searched
anywhere. -/
def hasNumAnswer (s : List Char) : Bool := hasNumAnswerFrom none s

/-- Match `\b[xy]\s*=\s*[-+]?\d+` at the current position (searched on
lower-cased text by the extractor). -/
def xyEqAt (prev : Option Char) (s : List Char) : Bool :=
  match s with
  | [] => false
  | ch :: r1 =>
    (ch = 'x' || ch = 'y') && boundaryBefore prev &&
    (match r1.dropWhile isSpaceChar with
     | '=' :: r3 =>
       let r4 := r3.dropWhile isSpaceChar
       (match r4 with
        | c2 :: r5 =>
          if c2 = '-' || c2 = '+' then
            match r5 with
            | d :: _ => isDigitChar d
            | [] => false
          else isDigitChar c2
        | [] => false)
     | _ => false)

def hasXyEqFrom : Option Char → List Char → Bool
  | _, [] => false
  | prev, ch :: cs => xyEqAt prev (ch :: cs) || hasXyEqFrom (some ch) cs

def hasXyEq (s : List Char) : Bool := hasXyEqFrom none s

/-! ### Whitespace normalization and line handling -/

/-- `str.rstrip()`. -/
def rstripChars (s : List Char) : List Char := (s.reverse.dropWhile isSpaceChar).reverse

/-- `str.lstrip()`. -/
def lstripChars (s : List Char) : List Char := s.dropWhile isSpaceChar

/-- `str.strip()`. -/
def stripChars (s : List Char) : List Char := rstripChars (lstripChars s)

/-- `str.strip()` is falsy exactly when every character is whitespace. -/
def isBlank (s : List Char) : Bool := s.all isSpaceChar

mutual

/-- Replace every maximal whitespace run by a single space
(`re.sub` of one-or-more whitespace with a single space). -/
def collapseWS : List Char → List Char
  | [] => []
  | ch :: t => if isSpaceChar ch then ' ' :: collapseRun t else ch :: collapseWS t

def collapseRun : List Char → List Char
  | [] => []
  | ch :: t => if isSpaceChar ch then collapseRun t else ch :: collapseWS t

end

/-- `_norm(text) = re.sub(r"\s+", " ", text.strip())`. -/
def normText (s : List Char) : List Char := collapseWS (stripChars s)

/-- `str.splitlines()` for the ASCII line boundaries: `\n`, `\r\n`, `\r`,
vertical tab `\x0b`, form feed `\x0c`, and the file/group/record separators
`\x1c`-`\x1e` (only `\r\n` is a two-character boundary).  A trailing boundary
does not produce a final empty line. -/
def splitlinesGo (cur : List Char) : List Char → List (List Char)
  | [] => [cur.reverse]
  | '\r' :: '\n' :: t =>
    cur.reverse :: (match t with
      | [] => []
      | _ :: _ => splitlinesGo [] t)
  | '\n' :: t =>
    cur.reverse :: (match t with
      | [] => []
      | _ :: _ => splitlinesGo [] t)
  | '\r' :: t =>
    cur.reverse :: (match t with
      | [] => []
      | _ :: _ => splitlinesGo [] t)
  | '\x0b' :: t =>
    cur.reverse :: (match t with
      | [] => []
      | _ :: _ => splitlinesGo [] t)
  | '\x0c' :: t =>
    cur.reverse :: (match t with
      | [] => []
      | _ :: _ => splitlinesGo [] t)
  | '\x1c' :: t =>
    cur.reverse :: (match t with
      | [] => []
      | _ :: _ => splitlinesGo [] t)
  | '\x1d' :: t =>
    cur.reverse :: (match t with
      | [] => []
      | _ :: _ => splitlinesGo [] t)
  | '\x1e' :: t =>
    cur.reverse :: (match t with
      | [] => []
      | _ :: _ => splitlinesGo [] t)
  | ch :: t => splitlinesGo (ch :: cur) t

def splitlines : List Char → List (List Char)
  | [] => []
  | s => splitlinesGo [] s

/-! ### Topic taxonomy and topic detection -/

/-- `TOPIC_TAXONOMY` from heuristic.py, in its dict insertion order. -/
def TOPIC_TAXONOMY : List (String × List (String × List String)) :=
  [("Arithmetic",
    [("Fractions", ["fraction", "numerator", "denominator", "common denominator", "simplify", "mixed number"]),
     ("Decimals", ["decimal", "place value", "tenths", "hundredths", "thousandths"]),
     ("Percents", ["percent", "%", "percentage"]),
     ("Integers", ["integer", "negative", "positive", "absolute value", "number line"]),
     ("Ratios & Rates", ["ratio", "rate", "unit rate", "proportion", "scale"])]),
   ("Algebra",
    [("Expressions", ["expression", "distribute", "combine like terms", "simplify expression"]),
     ("Equations", ["equation", "solve for", "isolate", "variable", "x =", "y ="]),
     ("Linear Equations", ["linear", "slope", "y-intercept", "mx+b", "rise over run"]),
     ("Functions", ["function", "f(x)", "domain", "range", "input", "output"]),
     ("Exponents & Radicals", ["exponent", "power", "square root", "radical", "scientific notation"]),
     ("Quadratics", ["quadratic", "parabola", "vertex", "factor", "complete the square"])]),
   ("Geometry",
    [("Angles", ["angle", "vertical angles", "complementary", "supplementary", "parallel", "transversal"]),
     ("Triangles", ["triangle", "isosceles", "equilateral", "right triangle", "pythagorean", "similar", "congruent"]),
     ("Circles", ["circle", "radius", "diameter", "circumference", "arc", "chord", "tangent"]),
     ("Area & Perimeter", ["area", "perimeter", "volume", "surface area"]),
     ("Coordinate Geometry", ["coordinate", "graph", "slope", "distance formula", "midpoint"])]),
   ("Data & Probability",
    [("Statistics", ["mean", "median", "mode", "range", "standard deviation", "box plot", "histogram"]),
     ("Probability", ["probability", "chance", "likely", "outcome", "sample space"])]),
   ("Word Problems",
    [("Translation", ["word problem", "translate", "given", "find", "let", "represents"])])]

/-- One entry of the `scores` dict of `_detect_topics_in_text`. -/
structure TopicScore where
  topic_name : String
  parent_topic : String
  hit_count : ℕ
  hits : List String
  deriving Repr, DecidableEq

/-- The keyword scan inside `_detect_topics_in_text`: total occurrence count
over all keywords plus the list of matched keywords. -/
def kwHits (text_l : List Char) (keywords : List String) : ℕ × List String :=
  keywords.foldl
    (fun acc kw =>
      let kw_l := lowerStr kw.data
      if isSubstr kw_l text_l then (acc.1 + countOcc kw_l text_l, acc.2 ++ [kw])
      else acc)
    (0, [])

/-- The keyword-driven part of the `scores` dict, as an insertion-ordered
association list (topics appear in taxonomy order, only if hit). -/
def baseScores (text_l : List Char) : List TopicScore :=
  TOPIC_TAXONOMY.flatMap (fun pc =>
    pc.2.filterMap (fun tk =>
      let hk := kwHits text_l tk.2
      if 0 < hk.1 then some ⟨tk.1, pc.1, hk.1, hk.2⟩ else none))

/-- `scores[name] = cur` for the three structural detectors: update in place
when present (dict position preserved), else append. -/
def upsertScore (l : List TopicScore) (name parent : String) (bump : ℕ) (tag : String) :
    List TopicScore :=
  if l.any (fun t => t.topic_name = name) then
    l.map (fun t =>
      if t.topic_name = name then
        { t with hit_count := t.hit_count + bump, hits := t.hits ++ [tag] }
      else t)
  else l ++ [⟨name, parent, bump, [tag]⟩]

/-- `_detect_topics_in_text`: keyword hits over the lower-cased text, then the
three structural detectors (fraction token on the raw text, `%` on the raw
text, `[xy] = n` on the lower-cased text). -/
def detectTopicsInText (text : List Char) : List TopicScore :=
  let text_l := lowerStr text
  let s0 := baseScores text_l
  let s1 := if hasFracToken text then upsertScore s0 "Fractions" "Arithmetic" 2 "<fraction a/b>" else s0
  let s2 := if text.contains '%' then upsertScore s1 "Percents" "Arithmetic" 1 "%" else s1
  if hasXyEq text_l then upsertScore s2 "Equations" "Algebra" 1 "x=.../y=..." else s2

/-! ### Rankings: the Python `sorted(...)` key orders -/

/-- Lexicographic strict order on character lists by code point — Python's
string `<`. -/
def strLtB : List Char → List Char → Bool
  | [], [] => false
  | [], _ :: _ => true
  | _ :: _, [] => false
  | a :: as, b :: bs => a.toNat < b.toNat || (a.toNat = b.toNat && strLtB as bs)

/-- Lexicographic `≤` on character lists by code point. -/
def strLeB : List Char → List Char → Bool
  | [], _ => true
  | _ :: _, [] => false
  | a :: as, b :: bs => a.toNat < b.toNat || (a.toNat = b.toNat && strLeB as bs)

/-- The session ranking key `(-hit_count, topic_name)` as a total preorder:
`a` sorts no later than `b`. -/
def sessionKeyLe (a b : TopicScore) : Bool :=
  b.hit_count < a.hit_count ||
    (a.hit_count = b.hit_count && strLeB a.topic_name.data b.topic_name.data)

/-- The trial ranking key `(-hit_count, parent_topic, topic_name)` as a total
preorder. -/
def trialKeyLe (a b : TopicScore) : Bool :=
  b.hit_count < a.hit_count ||
    (a.hit_count = b.hit_count &&
      (strLtB a.parent_topic.data b.parent_topic.data ||
        (a.parent_topic = b.parent_topic && strLeB a.topic_name.data b.topic_name.data)))

/-- Python's `sorted` with the session key (a stable sort; insertion sort with
a `≤`-style total preorder is stable). -/
def sessionRank (l : List TopicScore) : List TopicScore :=
  List.insertionSort (fun a b => sessionKeyLe a b = true) l

/-- Python's `sorted` with the trial key. -/
def trialRank (l : List TopicScore) : List TopicScore :=
  List.insertionSort (fun a b => trialKeyLe a b = true) l

/-- `detected_topics` in `extract_session`: topic names ranked by
`(-hit_count, topic_name)`, truncated to the 8 most salient. -/
def detectedTopics (text : List Char) : List String :=
  ((sessionRank (detectTopicsInText text)).map (fun t => t.topic_name)).take 8

/-- `mentioned_topics` in `extract_trial`: all hit topics ranked by
`(-hit_count, parent_topic, topic_name)`. -/
def mentionedTopics (text : List Char) : List TopicScore :=
  trialRank (detectTopicsInText text)

/-! ### Turn splitting -/

structure Turn where
  speaker : String
  text : List Char
  deriving Repr, DecidableEq

/-- Match `^\s*(Tutor|Student|Parent)\s*:\s*(.*)$` (case-insensitive) against
a line; on success return the title-cased speaker and the remainder after the
colon and following whitespace. -/
def speakerColonRest (canonical : String) (r2 : List Char) : Option (String × List Char) :=
  match r2.dropWhile isSpaceChar with
  | ':' :: r4 => some (canonical, r4.dropWhile isSpaceChar)
  | _ => none

def matchSpeaker (line : List Char) : Option (String × List Char) :=
  let r := line.dropWhile isSpaceChar
  match stripLowerPre "tutor".data r with
  | some r2 => speakerColonRest "Tutor" r2
  | none =>
    match stripLowerPre "student".data r with
    | some r2 => speakerColonRest "Student" r2
    | none =>
      match stripLowerPre "parent".data r with
      | some r2 => speakerColonRest "Parent" r2
      | none => none

/-- A line that matches the speaker pattern and whose remainder after the
colon is non-blank (the condition under which `_split_turns` will flush a
turn for it). -/
def speakerLineNB (l : List Char) : Bool :=
  match matchSpeaker l with
  | some sr => !isBlank sr.2
  | none => false

/-- The line loop of `_split_turns`: flush the current turn (normalized) when
a new speaker line starts or at end of input, but only if its accumulated text
is non-blank; non-matching lines are appended with a newline. -/
def splitTurnsGo (curSpeaker : String) (curText : List Char) :
    List (List Char) → List Turn
  | [] => if isBlank curText then [] else [⟨curSpeaker, normText curText⟩]
  | l :: ls =>
    match matchSpeaker l with
    | some sp =>
      if isBlank curText then splitTurnsGo sp.1 sp.2 ls
      else ⟨curSpeaker, normText curText⟩ :: splitTurnsGo sp.1 sp.2 ls
    | none => splitTurnsGo curSpeaker (curText ++ '\n' :: l) ls

/-- `_split_turns`: lines are right-stripped first; if no turn was produced
and the transcript is non-blank, emit a single `Unknown` turn holding the
normalized full text. -/
def splitTurns (text : List Char) : List Turn :=
  let lines := (splitlines text).map rstripChars
  let ts := splitTurnsGo "Unknown" [] lines
  if ts.isEmpty && !isBlank text then [⟨"Unknown", normText text⟩] else ts

/-! ### Session extraction: per-topic signals, updates, mental blocks -/

/-- A `known_topics` row as consumed by `extract_session` (the parent topic is
not read by the session path). -/
structure KnownTopic where
  topic_name : String
  mastery_score : ℤ
  confidence_score : ℤ
  deriving Repr, DecidableEq

def stripName (s : String) : String := ⟨stripChars s.data⟩

/-- Insert a fresh all-zero accumulator for `name` unless present (re-seeding
an existing key would overwrite zeros with zeros and keep its position). -/
def addZeroSig (l : List (String × Signals)) (name : String) : List (String × Signals) :=
  if l.any (fun p => p.1 = name) then l else l ++ [(name, ({} : Signals))]

/-- Seed one accumulator per known topic (stripped, non-empty names) and per
detected topic. -/
def seedSignals (known : List KnownTopic) (detected : List String) :
    List (String × Signals) :=
  let l0 := known.foldl
    (fun acc k =>
      let name := stripName k.topic_name
      if name = "" then acc else addZeroSig acc name)
    []
  detected.foldl (fun acc t => addZeroSig acc t) l0

/-- `topic_kw_map` in taxonomy order. -/
def topicKwPairs : List (String × List String) :=
  TOPIC_TAXONOMY.flatMap (fun pc => pc.2)

/-- First-occurrence deduplication (Python `set` membership collected during
a scan; order is irrelevant because the result is sorted afterwards). -/
def dedupFirst (seen : List String) : List String → List String
  | [] => []
  | x :: xs =>
    if seen.contains x then dedupFirst seen xs
    else x :: dedupFirst (x :: seen) xs

def sortStrings (l : List String) : List String :=
  List.insertionSort (fun a b => strLeB a.data b.data = true) l

/-- The per-turn topic attribution: keyword hits on the lower-cased turn text
plus the three structural detectors, then `sorted(set(...))`. -/
def matchedTopicsOfTurn (ttext : List Char) : List String :=
  let t_l := lowerStr ttext
  let base := topicKwPairs.filterMap (fun tk =>
    if tk.2.any (fun kw => isSubstr (lowerStr kw.data) t_l) then some tk.1 else none)
  let m := base
    ++ (if hasFracToken ttext then ["Fractions"] else [])
    ++ (if ttext.contains '%' then ["Percents"] else [])
    ++ (if hasXyEq t_l then ["Equations"] else [])
  sortStrings (dedupFirst [] m)

/-- The per-topic signal update applied by one turn to one matched topic.
Only the literal speaker `"Tutor"` gets the hint branch; every other speaker
(Student, Unknown, and also Parent) takes the student branch, as in the code. -/
def applyTurnToSig (speaker : String) (ttext : List Char) (sig : Signals) : Signals :=
  if speaker = "Tutor" then
    if hintMatch ttext then { sig with hint_count := sig.hint_count + 1 } else sig
  else
    let hasQ := ttext.contains '?'
    let s1 := { sig with attempt_count := sig.attempt_count + 1 }
    let s2 :=
      if negConfMatch ttext || hasQ then
        { s1 with error_count := s1.error_count + 1,
                  confidence_negative := s1.confidence_negative + 1 }
      else s1
    let s3 :=
      if posConfMatch ttext then
        { s2 with confidence_positive := s2.confidence_positive + 1 }
      else s2
    let looks_like_final_answer :=
      answerishLike ttext ||
        (hasNumAnswer ttext && ttext.length ≤ 60 && !ttext.contains '\n')
    if looks_like_final_answer && !negConfMatch ttext && !hasQ then
      { s3 with independent_count := s3.independent_count + 1 }
    else s3

/-- Apply one turn to the accumulator map: each matched topic that has an
accumulator is updated; matched topics without one are skipped
(`if not sig: continue`). -/
def applyTurnSignals (turn : Turn) (sigs : List (String × Signals)) :
    List (String × Signals) :=
  let mts := matchedTopicsOfTurn turn.text
  sigs.map (fun p =>
    if mts.contains p.1 then (p.1, applyTurnToSig turn.speaker turn.text p.2) else p)

/-- The ordered misconception `(pattern, label)` list, with each regex
alternation expanded into its literal alternatives (all patterns are
boundary-free, so matching is case-insensitive substring containment). -/
def misconceptionPatterns : List (List String × String) :=
  [(["add the denominators", "adding the denominators"],
    "Adds denominators when working with fractions"),
   (["cross-multiply", "cross multiply"],
    "Uses cross-multiplication incorrectly or in the wrong context"),
   (["sign error", "wrong sign", "forgot the negative"],
    "Sign error with negatives"),
   (["distribute", "distribution"],
    "Distribution mistakes (missed a term or sign)")]

def detectMisconceptions (text : List Char) : List String :=
  misconceptionPatterns.filterMap (fun pl =>
    if pl.1.any (fun a => isSubstr (lowerStr a.data) (lowerStr text)) then some pl.2
    else none)

/-- The repeated-error boost: for each current misconception also present in
the most recent 10 sessions' recorded misconceptions, bump
`repeated_error_count` on *every* detected topic (all detected topics are
seeded, so the code's `setdefault` never creates an entry here). -/
def repeatBoost (detected_topics detected_mis : List String)
    (recent : List (List String)) (sigs : List (String × Signals)) :
    List (String × Signals) :=
  let recent_mis := (recent.take 10).flatMap id
  detected_mis.foldl
    (fun acc m =>
      if 0 < recent_mis.count m then
        acc.map (fun p =>
          if detected_topics.contains p.1 then
            (p.1, { p.2 with repeated_error_count := p.2.repeated_error_count + 1 })
          else p)
      else acc)
    sigs

/-- `per_topic_signals` at the end of the signal phase of `extract_session`:
`recent` is the (most-recent-first) list of prior sessions' recorded
misconception lists. -/
def sessionSignals (text : List Char) (known : List KnownTopic)
    (recent : List (List String)) : List (String × Signals) :=
  let turns := splitTurns text
  let detected := detectedTopics text
  let seeded := seedSignals known detected
  let after := turns.foldl (fun acc t => applyTurnSignals t acc) seeded
  repeatBoost detected (detectMisconceptions text) recent after

def sigNonzero (s : Signals) : Bool :=
  0 < s.attempt_count + s.error_count + s.hint_count + s.independent_count
      + s.repeated_error_count + s.confidence_positive + s.confidence_negative

/-- `sorted(active_topics)`: detected topics unioned with every topic whose
accumulator has a non-zero counter. -/
def activeTopics (text : List Char) (known : List KnownTopic)
    (recent : List (List String)) : List String :=
  let sigs := sessionSignals text known recent
  sortStrings (dedupFirst []
    (detectedTopics text ++ sigs.filterMap (fun p => if sigNonzero p.2 then some p.1 else none)))

structure TopicUpdate where
  previous_mastery : ℤ
  new_mastery : ℤ
  previous_confidence : ℤ
  new_confidence : ℤ
  explanation : Explanation
  deriving Repr, DecidableEq

def lookupSig (sigs : List (String × Signals)) (t : String) : Signals :=
  match sigs.find? (fun p => p.1 = t) with
  | some p => p.2
  | none => {}

/-- `known_topic_by_name` is a dict comprehension, so on duplicate names the
last row wins; absent topics default to mastery 15, confidence 50. -/
def prevScores (known : List KnownTopic) (t : String) : ℤ × ℤ :=
  match known.reverse.find? (fun k => k.topic_name = t) with
  | some k => (k.mastery_score, k.confidence_score)
  | none => (15, 50)

/-- `per_topic_updates`: one growth-engine run per active topic, in
lexicographically sorted order. -/
def perTopicUpdates (text : List Char) (known : List KnownTopic)
    (recent : List (List String)) (c : GrowthConfig) : List (String × TopicUpdate) :=
  let sigs := sessionSignals text known recent
  (activeTopics text known recent).map (fun t =>
    let sig := lookupSig sigs t
    let pm := (prevScores known t).1
    let pc := (prevScores known t).2
    let r := update_mastery_and_confidence pm pc sig c
    (t, ⟨pm, r.new_mastery, pc, r.new_confidence, r.explanation⟩))

structure MentalBlockCandidate where
  description : String
  session_count : ℕ
  avoidance_signals : ℕ
  initial_severity : ℤ
  repeat_severity_delta : ℤ
  deriving Repr, DecidableEq

/-- Occurrences of misconception `m` across the most recent 25 sessions'
recorded misconceptions (duplicates within a session each count, as in the
code's per-item loop). -/
def misCount (recent : List (List String)) (m : String) : ℕ :=
  ((recent.take 25).flatMap id).count m

/-- The mental-block candidacy loop at the end of `extract_session`:
`avoidance` is the transcript-wide avoidance-pattern match count. -/
def mentalBlockCandidates (detected_mis : List String) (recent : List (List String))
    (avoidance : ℕ) (c : GrowthConfig) : List MentalBlockCandidate :=
  detected_mis.filterMap (fun m =>
    let session_count := misCount recent m + 1
    if c.mental_block_session_threshold ≤ (session_count : ℤ) ∨ 0 < avoidance then
      some ⟨m, session_count, avoidance,
        c.mental_block_base_severity
          + (if 0 < avoidance then c.mental_block_avoidance_bonus else 0),
        c.mental_block_repeat_delta
          + (if 0 < avoidance then c.mental_block_avoidance_bonus else 0)⟩
    else none)

/-! ### Trial extraction: the inferred roadmap's focus domains -/

/-- The focus-domain branch of `_infer_roadmap`: the normalized target exam is
tested against `\bSAT\b` / `\bACT\b` (case-insensitive, word-delimited), and
an empty focus list falls back to the default domains. -/
def focusDomains (target_exam : String) : List String :=
  let exam_n := normText target_exam.data
  let focus :=
    if exam_n ≠ [] ∧ (hasWordTokenFrom "sat".data none exam_n
        || hasWordTokenFrom "act".data none exam_n) then
      ["Algebra", "Geometry", "Data & Probability", "Word Problems"]
    else []
  if focus = [] then ["Arithmetic", "Algebra", "Geometry"] else focus

/-- Case-insensitive substring containment — the condition the specification
text claims for the SAT/ACT test. -/
def containsCI (pat : String) (s : List Char) : Bool :=
  isSubstr (lowerStr pat.data) (lowerStr s)

/-! ### Whitespace words (proof-side view of normalization) -/

/-- The whitespace-separated words of a string (proof-side notion used to
reason about `normText`). -/
def wordsOf : List Char → List (List Char)
  | [] => []
  | ch :: t =>
    if isSpaceChar ch then wordsOf t
    else (ch :: t.takeWhile (fun d => !isSpaceChar d)) :: wordsOf (t.dropWhile (fun d => !isSpaceChar d))
termination_by l => l.length
decreasing_by
  · simp only [List.length_cons]; omega
  · simp only [List.length_cons]
    exact Nat.lt_succ_of_le (List.dropWhile_sublist _).length_le

/-- Join words with single spaces. -/
def unwords : List (List Char) → List Char
  | [] => []
  | [w] => w
  | w :: ws => w ++ ' ' :: unwords ws

/-! ### Basic lemmas about the clamp and rounding primitives -/

theorem le_clampInt (v lo hi : ℤ) : lo ≤ clampInt v lo hi := le_max_left _ _

theorem clampInt_le (v lo hi : ℤ) (h : lo ≤ hi) : clampInt v lo hi ≤ hi :=
  max_le h (min_le_left _ _)

theorem clampInt_mono {a b : ℤ} (lo hi : ℤ) (h : a ≤ b) :
    clampInt a lo hi ≤ clampInt b lo hi := by
  unfold clampInt; omega

theorem clampInt_eq_self {v lo hi : ℤ} (h0 : lo ≤ v) (h1 : v ≤ hi) :
    clampInt v lo hi = v := by
  unfold clampInt; omega

theorem le_clampQ (v lo hi : ℚ) : lo ≤ clampQ v lo hi := le_max_left _ _

theorem clampQ_le (v lo hi : ℚ) (h : lo ≤ hi) : clampQ v lo hi ≤ hi :=
  max_le h (min_le_left _ _)

theorem clampQ_mono {a b : ℚ} (lo hi : ℚ) (h : a ≤ b) :
    clampQ a lo hi ≤ clampQ b lo hi :=
  max_le_max le_rfl (min_le_min le_rfl h)

theorem clampQ_of_hi_lt_lo (v lo hi : ℚ) (h : hi < lo) : clampQ v lo hi = lo :=
  max_eq_left ((min_le_left hi v).trans h.le)

theorem clampQ_eq_self {v lo hi : ℚ} (h0 : lo ≤ v) (h1 : v ≤ hi) :
    clampQ v lo hi = v := by
  unfold clampQ
  rw [min_eq_right h1, max_eq_right h0]

theorem pyRound_intCast (n : ℤ) : pyRound (n : ℚ) = n := by
  unfold pyRound
  simp [Int.floor_intCast]

theorem floor_le_pyRound (q : ℚ) : ⌊q⌋ ≤ pyRound q := by
  unfold pyRound
  split_ifs <;> omega

theorem pyRound_le_floor_add_one (q : ℚ) : pyRound q ≤ ⌊q⌋ + 1 := by
  unfold pyRound
  split_ifs <;> omega

theorem pyRound_mono {x y : ℚ} (h : x ≤ y) : pyRound x ≤ pyRound y := by
  have hf : ⌊x⌋ ≤ ⌊y⌋ := Int.floor_mono h
  rcases eq_or_lt_of_le hf with heq | hlt
  · have hxy : x - (⌊x⌋ : ℚ) ≤ y - (⌊y⌋ : ℚ) := by
      rw [← heq]; exact sub_le_sub_right h _
    unfold pyRound
    rw [← heq]
    split_ifs <;> first | omega | linarith
  · calc pyRound x ≤ ⌊x⌋ + 1 := pyRound_le_floor_add_one x
    _ ≤ ⌊y⌋ := by omega
    _ ≤ pyRound y := floor_le_pyRound y

/-- The rounded `mastery_delta` always lies within
`[-(max |max_session_delta| |min_session_delta|), max |max_session_delta| |min_session_delta|]`,
for every configuration (also a degenerate one with `min > max`). -/
theorem masteryDelta_abs_le (s : Signals) (c : GrowthConfig) :
    |masteryDelta s c| ≤ max |c.max_session_delta| |c.min_session_delta| := by
  have hM1 : c.max_session_delta ≤ max |c.max_session_delta| |c.min_session_delta| :=
    (le_abs_self _).trans (le_max_left _ _)
  have hM2 : -(max |c.max_session_delta| |c.min_session_delta|) ≤ c.min_session_delta := by
    have := neg_abs_le c.min_session_delta
    have := le_max_right |c.max_session_delta| |c.min_session_delta|
    omega
  rcases le_or_lt c.min_session_delta c.max_session_delta with hle | hgt
  · have hlo : (c.min_session_delta : ℤ) ≤ masteryDelta s c := by
      have h1 : ((c.min_session_delta : ℤ) : ℚ) ≤ boundedDelta s c := le_clampQ _ _ _
      have := pyRound_mono h1
      rwa [pyRound_intCast] at this
    have hhi : masteryDelta s c ≤ c.max_session_delta := by
      have h1 : boundedDelta s c ≤ ((c.max_session_delta : ℤ) : ℚ) :=
        clampQ_le _ _ _ (by exact_mod_cast hle)
      have := pyRound_mono h1
      rwa [pyRound_intCast] at this
    rw [abs_le]; omega
  · have hbd : boundedDelta s c = (c.min_session_delta : ℚ) :=
      clampQ_of_hi_lt_lo _ _ _ (by exact_mod_cast hgt)
    have : masteryDelta s c = c.min_session_delta := by
      rw [masteryDelta, hbd, pyRound_intCast]
    rw [this, abs_le]
    have := le_max_right |c.max_session_delta| |c.min_session_delta|
    have := le_abs_self c.min_session_delta
    have := neg_abs_le c.min_session_delta
    omega

/-- Monotone pipeline: a larger raw delta never produces a smaller new mastery. -/
theorem newMastery_mono_rawDelta (pm : ℤ) {s t : Signals} (c : GrowthConfig)
    (h : rawDelta s c ≤ rawDelta t c) : newMastery pm s c ≤ newMastery pm t c := by
  unfold newMastery masteryDelta boundedDelta
  exact clampInt_mono _ _ (by
    have := pyRound_mono (clampQ_mono (c.min_session_delta : ℚ) (c.max_session_delta : ℚ) h)
    omega)

theorem correctionSpeed_nonneg (s : Signals) : 0 ≤ correctionSpeed s := by
  unfold correctionSpeed
  positivity

theorem correctionSpeed_le_one (s : Signals) : correctionSpeed s ≤ 1 := by
  unfold correctionSpeed
  rw [div_le_one (by positivity)]
  have h1 : (0 : ℚ) ≤ (s.hint_count : ℚ) / (denomErrors s : ℚ) := by positivity
  linarith

theorem denomAttempts_posQ (s : Signals) : (0 : ℚ) < (denomAttempts s : ℚ) := by
  have : 0 < denomAttempts s := lt_of_lt_of_le Nat.one_pos (le_max_left _ _)
  exact_mod_cast this

theorem independence_nonneg (s : Signals) : 0 ≤ independence s := by
  unfold independence
  positivity

/-! ### Claim C1 -/

/-- C1: for every previous mastery/confidence, every signal map and every
`GrowthConfig`, `update_mastery_and_confidence` returns integers in `[0, 100]`,
and both are computed as `clamp(previous + round(bounded_delta), 0, 100)`
(a relative, clamped transition — not an absolute overwrite from signals):
the new mastery depends on `previous_mastery` through the stated formula, and
likewise for confidence.  Proved without any range restriction on the previous
values, which covers in particular all previous values in `[0, 100]`. -/
theorem update_clamped_transition_form (pm pc : ℤ) (s : Signals) (c : GrowthConfig) :
    (0 ≤ (update_mastery_and_confidence pm pc s c).new_mastery ∧
      (update_mastery_and_confidence pm pc s c).new_mastery ≤ 100) ∧
    (0 ≤ (update_mastery_and_confidence pm pc s c).new_confidence ∧
      (update_mastery_and_confidence pm pc s c).new_confidence ≤ 100) ∧
    (update_mastery_and_confidence pm pc s c).new_mastery
      = clampInt (pm + pyRound (boundedDelta s c)) 0 100 ∧
    (update_mastery_and_confidence pm pc s c).new_confidence
      = clampInt (pc + pyRound (clampQ (rawConfDelta s c) (-12) 12)) 0 100 := by
  refine ⟨⟨le_clampInt _ _ _, clampInt_le _ _ _ (by norm_num)⟩,
    ⟨le_clampInt _ _ _, clampInt_le _ _ _ (by norm_num)⟩, rfl, rfl⟩

/-! ### Claim C2 -/

/-- C2 counterexample: the claim quantifies over *every* `previous_mastery`,
but for `previous_mastery = 200` (outside `[0, 100]`) with all-zero signals and
the default config the clamp to `[0, 100]` moves mastery by `100 > 12`. -/
theorem bounded_delta_fails_out_of_range :
    (update_mastery_and_confidence 200 50 {} defaultConfig).new_mastery = 100 ∧
    ¬(|(update_mastery_and_confidence 200 50 {} defaultConfig).new_mastery - 200|
        ≤ max |defaultConfig.max_session_delta| |defaultConfig.min_session_delta|) := by
  have h : (update_mastery_and_confidence 200 50 {} defaultConfig).new_mastery = 100 := by
    show newMastery 200 {} defaultConfig = 100
    simp only [newMastery, masteryDelta, boundedDelta, rawDelta, improvementFactor,
      correctionSpeed, independence, denomErrors, denomAttempts, independentBonusTerm,
      errorPenaltyTerm, repeatedErrorPenaltyTerm, clampQ, clampInt, pyRound, defaultConfig]
    norm_num
  refine ⟨h, ?_⟩
  rw [h]
  show ¬(|(100:ℤ) - 200| ≤ max |(12:ℤ)| |(-12:ℤ)|)
  decide

/-- C2 as amended: for `previous_mastery ∈ [0, 100]` (the data-model invariant
range), every signal map and every config,
`|new_mastery - previous_mastery| ≤ max |max_session_delta| |min_session_delta|`. -/
theorem bounded_delta_in_range (pm : ℤ) (s : Signals) (c : GrowthConfig)
    (h0 : 0 ≤ pm) (h1 : pm ≤ 100) :
    |(update_mastery_and_confidence pm 50 s c).new_mastery - pm|
      ≤ max |c.max_session_delta| |c.min_session_delta| := by
  have habs := masteryDelta_abs_le s c
  rw [abs_le] at habs ⊢
  show -(max |c.max_session_delta| |c.min_session_delta|)
      ≤ newMastery pm s c - pm ∧ newMastery pm s c - pm ≤ _
  unfold newMastery clampInt
  omega

theorem bounded_delta_in_range_witness :
    (0 ≤ (15:ℤ)) ∧ ((15:ℤ) ≤ 100) ∧
    |(update_mastery_and_confidence 15 50 { independent_count := 3 } defaultConfig).new_mastery - 15|
      ≤ max |defaultConfig.max_session_delta| |defaultConfig.min_session_delta| :=
  ⟨by norm_num, by norm_num,
    bounded_delta_in_range 15 { independent_count := 3 } defaultConfig (by norm_num) (by norm_num)⟩

/-! ### Claim C7 -/

/-- C7 counterexample: the explanation record does *not* retain the raw
(unclamped) delta.  At signals with `attempt=1, error=1, independent=10,
hint=1` the raw delta is `67.5`, and no numeric leaf of the explanation
record equals `67.5`: the record keeps only the bounded delta (`12`). -/
theorem explanation_omits_raw_delta :
    rawDelta { attempt_count := 1, error_count := 1, independent_count := 10,
               hint_count := 1 } defaultConfig = 135/2 ∧
    (135/2 : ℚ) ∉ explanationNums
      (update_mastery_and_confidence 15 50
        { attempt_count := 1, error_count := 1, independent_count := 10,
          hint_count := 1 } defaultConfig).explanation := by
  constructor
  · simp only [rawDelta, improvementFactor, correctionSpeed, independence, denomErrors,
      denomAttempts, independentBonusTerm, errorPenaltyTerm, repeatedErrorPenaltyTerm,
      defaultConfig]
    norm_num
  · simp only [explanationNums, update_mastery_and_confidence, masteryDelta, confDelta,
      boundedDelta, rawDelta, rawConfDelta, improvementFactor, correctionSpeed,
      independence, denomErrors, denomAttempts, independentBonusTerm, errorPenaltyTerm,
      repeatedErrorPenaltyTerm, clampQ, pyRound, defaultConfig, List.mem_cons,
      List.not_mem_nil]
    norm_num

/-- C7 as amended: the explanation record retains every derived intermediate
*except the raw unclamped delta*: correction_speed, independence, the four
delta components, the bounded delta, the rounded mastery/confidence deltas,
and a verbatim copy of the seven input signal counts. -/
theorem explanation_field_contract (pm pc : ℤ) (s : Signals) (c : GrowthConfig) :
    ((update_mastery_and_confidence pm pc s c).explanation.derived_signals.correction_speed
        = correctionSpeed s) ∧
    ((update_mastery_and_confidence pm pc s c).explanation.derived_signals.independence
        = independence s) ∧
    ((update_mastery_and_confidence pm pc s c).explanation.delta_components
        = ⟨improvementFactor s c, independentBonusTerm s c,
           errorPenaltyTerm s c, repeatedErrorPenaltyTerm s c⟩) ∧
    ((update_mastery_and_confidence pm pc s c).explanation.bounded_delta = boundedDelta s c) ∧
    ((update_mastery_and_confidence pm pc s c).explanation.mastery_delta = masteryDelta s c) ∧
    ((update_mastery_and_confidence pm pc s c).explanation.confidence_delta = confDelta s c) ∧
    ((update_mastery_and_confidence pm pc s c).explanation.signals_used = s) :=
  ⟨rfl, rfl, rfl, rfl, rfl, rfl, rfl⟩

/-! ### Claim C10 -/

/-- C10 counterexample: with all seven signals zero the update is *not* the
identity for every previous value and every config.  (a) With the default
config but `previous_mastery = 200`, the result is `100 ≠ 200`.  (b) With
`previous_mastery = 50 ∈ [0,100]` but a config whose `max_session_delta = -5`,
the clamped zero delta becomes `-5` and the result is `45 ≠ 50`. -/
theorem zero_signals_not_identity :
    ((update_mastery_and_confidence 200 50 {} defaultConfig).new_mastery = 100 ∧
      (100 : ℤ) ≠ 200) ∧
    ((update_mastery_and_confidence 50 50 {}
        { defaultConfig with max_session_delta := -5 }).new_mastery = 45 ∧
      (45 : ℤ) ≠ 50) := by
  refine ⟨⟨?_, by decide⟩, ⟨?_, by decide⟩⟩
  · show newMastery 200 {} defaultConfig = 100
    simp only [newMastery, masteryDelta, boundedDelta, rawDelta, improvementFactor,
      correctionSpeed, independence, denomErrors, denomAttempts, independentBonusTerm,
      errorPenaltyTerm, repeatedErrorPenaltyTerm, clampQ, clampInt, pyRound, defaultConfig]
    norm_num
  · show newMastery 50 {} { defaultConfig with max_session_delta := -5 } = 45
    simp only [newMastery, masteryDelta, boundedDelta, rawDelta, improvementFactor,
      correctionSpeed, independence, denomErrors, denomAttempts, independentBonusTerm,
      errorPenaltyTerm, repeatedErrorPenaltyTerm, clampQ, clampInt, pyRound, defaultConfig]
    norm_num

/-- C10 as amended: if all seven signal counts are zero, then for every
previous mastery/confidence *in `[0, 100]`* and every config whose session
delta window contains zero (`min_session_delta ≤ 0 ≤ max_session_delta`, as
the defaults do), `update_mastery_and_confidence` leaves both values
unchanged. -/
theorem zero_signals_identity (pm pc : ℤ) (c : GrowthConfig)
    (h0 : 0 ≤ pm) (h1 : pm ≤ 100) (h2 : 0 ≤ pc) (h3 : pc ≤ 100)
    (hmin : c.min_session_delta ≤ 0) (hmax : 0 ≤ c.max_session_delta) :
    (update_mastery_and_confidence pm pc {} c).new_mastery = pm ∧
    (update_mastery_and_confidence pm pc {} c).new_confidence = pc := by
  have hraw : rawDelta {} c = 0 := by
    simp only [rawDelta, improvementFactor, correctionSpeed, independence, denomErrors,
      denomAttempts, independentBonusTerm, errorPenaltyTerm, repeatedErrorPenaltyTerm]
    norm_num
  have hrawc : rawConfDelta {} c = 0 := by
    simp only [rawConfDelta, independence, denomAttempts]
    norm_num
  constructor
  · show newMastery pm {} c = pm
    have hbd : boundedDelta {} c = 0 := by
      rw [boundedDelta, hraw]
      exact clampQ_eq_self (by exact_mod_cast hmin) (by exact_mod_cast hmax)
    have : masteryDelta {} c = 0 := by
      rw [masteryDelta, hbd]
      exact_mod_cast pyRound_intCast 0
    rw [newMastery, this, add_zero]
    exact clampInt_eq_self h0 h1
  · show newConfidence pc {} c = pc
    have : confDelta {} c = 0 := by
      rw [confDelta, hrawc, clampQ_eq_self (by norm_num) (by norm_num)]
      exact_mod_cast pyRound_intCast 0
    rw [newConfidence, this, add_zero]
    exact clampInt_eq_self h2 h3

theorem zero_signals_identity_witness :
    (0 ≤ (42:ℤ)) ∧ ((42:ℤ) ≤ 100) ∧ (0 ≤ (77:ℤ)) ∧ ((77:ℤ) ≤ 100) ∧
    defaultConfig.min_session_delta ≤ 0 ∧ 0 ≤ defaultConfig.max_session_delta ∧
    (update_mastery_and_confidence 42 77 {} defaultConfig).new_mastery = 42 ∧
    (update_mastery_and_confidence 42 77 {} defaultConfig).new_confidence = 77 := by
  refine ⟨by norm_num, by norm_num, by norm_num, by norm_num, by decide, by decide, ?_⟩
  exact zero_signals_identity 42 77 defaultConfig (by norm_num) (by norm_num)
    (by norm_num) (by norm_num) (by decide) (by decide)

/-! ### Claim C3 -/

theorem independence_le_one (s : Signals) (h : s.independent_count ≤ denomAttempts s) :
    independence s ≤ 1 := by
  unfold independence
  rw [div_le_one (denomAttempts_posQ s)]
  exact_mod_cast h

/-- One step of the correction-speed change when the error count grows by one:
the increase is at most `1/4`. -/
theorem csStep_le_quarter (h n : ℕ) :
    1 / (1 + (h : ℚ) / ((max 1 (n + 1) : ℕ) : ℚ))
      - 1 / (1 + (h : ℚ) / ((max 1 n : ℕ) : ℚ)) ≤ 1/4 := by
  match n with
  | 0 => norm_num
  | m + 1 =>
    have hmax1 : (max 1 (m + 1 + 1) : ℕ) = m + 2 := by omega
    have hmax2 : (max 1 (m + 1) : ℕ) = m + 1 := by omega
    rw [hmax1, hmax2]
    set a : ℚ := ((m + 1 : ℕ) : ℚ) with ha
    have ha1 : (1 : ℚ) ≤ a := by rw [ha]; exact_mod_cast Nat.one_le_iff_ne_zero.mpr (by omega)
    have ha0 : (0 : ℚ) < a := by linarith
    have hq0 : (0 : ℚ) ≤ (h : ℚ) := by positivity
    have hcast : ((m + 2 : ℕ) : ℚ) = a + 1 := by rw [ha]; push_cast; ring
    rw [hcast]
    have e1 : 1 + (h : ℚ) / (a + 1) = (a + 1 + h) / (a + 1) := by field_simp
    have e2 : 1 + (h : ℚ) / a = (a + h) / a := by field_simp
    rw [e1, e2, one_div_div, one_div_div]
    have hd1 : (0 : ℚ) < a + 1 + h := by linarith
    have hd2 : (0 : ℚ) < a + h := by linarith
    rw [div_sub_div _ _ hd1.ne' hd2.ne', div_le_div_iff (by positivity) (by norm_num)]
    ring_nf
    nlinarith [sq_nonneg ((h : ℚ) - 1), mul_nonneg (sub_nonneg.mpr ha1) hq0,
      sq_nonneg (a - 1), mul_nonneg hq0 hq0]

/-- Raising the error count by one never raises the raw delta, provided the
weights are well-formed (`improvement_weight ≥ 0`, `10·improvement_weight ≤
4·error_penalty`, as the defaults satisfy) and independence does not exceed 1. -/
theorem rawDelta_error_succ_le (s : Signals) (c : GrowthConfig) (n : ℕ)
    (hw : 0 ≤ c.improvement_weight)
    (hind : s.independent_count ≤ denomAttempts s)
    (hpen : 10 * c.improvement_weight ≤ 4 * c.error_penalty) :
    rawDelta { s with error_count := n + 1 } c ≤ rawDelta { s with error_count := n } c := by
  have hind1 : independence s ≤ 1 := independence_le_one s hind
  have hind0 : 0 ≤ independence s := independence_nonneg s
  have hcs := csStep_le_quarter s.hint_count n
  simp only [independence, denomAttempts] at hind1 hind0
  simp only [rawDelta, improvementFactor, correctionSpeed, independence, denomErrors,
    denomAttempts, independentBonusTerm, errorPenaltyTerm, repeatedErrorPenaltyTerm]
  have hn : ((n + 1 : ℕ) : ℚ) = (n : ℚ) + 1 := by push_cast; ring
  have key : 10 * c.improvement_weight *
        (1 / (1 + (s.hint_count : ℚ) / ((max 1 (n + 1) : ℕ) : ℚ))) *
        ((s.independent_count : ℚ) / ((max 1 s.attempt_count : ℕ) : ℚ))
      ≤ 10 * c.improvement_weight *
        (1 / (1 + (s.hint_count : ℚ) / ((max 1 n : ℕ) : ℚ))) *
        ((s.independent_count : ℚ) / ((max 1 s.attempt_count : ℕ) : ℚ)) + c.error_penalty := by
    set A := 1 / (1 + (s.hint_count : ℚ) / ((max 1 (n + 1) : ℕ) : ℚ)) with hA
    set B := 1 / (1 + (s.hint_count : ℚ) / ((max 1 n : ℕ) : ℚ)) with hB
    set I := (s.independent_count : ℚ) / ((max 1 s.attempt_count : ℕ) : ℚ) with hI
    have h1 : 10 * c.improvement_weight * I * (A - B)
        ≤ 10 * c.improvement_weight * I * (1/4) :=
      mul_le_mul_of_nonneg_left hcs (by positivity)
    have h2 : 10 * c.improvement_weight * I * (1/4)
        ≤ 10 * c.improvement_weight * 1 * (1/4) := by
      have := mul_le_mul_of_nonneg_left hind1 (show (0:ℚ) ≤ 10 * c.improvement_weight by linarith)
      nlinarith
    have h3 : 10 * c.improvement_weight * 1 * (1/4) ≤ c.error_penalty := by linarith
    nlinarith
  rw [hn]
  linarith

/-- Raising the independent count never lowers the raw delta, provided
`improvement_weight ≥ 0` and `independent_bonus ≥ 0`. -/
theorem rawDelta_ic_mono (s : Signals) (c : GrowthConfig) {i i' : ℕ}
    (hw : 0 ≤ c.improvement_weight) (hib : 0 ≤ c.independent_bonus) (h : i ≤ i') :
    rawDelta { s with independent_count := i } c
      ≤ rawDelta { s with independent_count := i' } c := by
  have hq : (i : ℚ) ≤ (i' : ℚ) := by exact_mod_cast h
  have hda : (0 : ℚ) < ((max 1 s.attempt_count : ℕ) : ℚ) := by
    have : (0:ℕ) < max 1 s.attempt_count := lt_of_lt_of_le Nat.one_pos (le_max_left _ _)
    exact_mod_cast this
  have hcs : (0 : ℚ) ≤ 1 / (1 + (s.hint_count : ℚ) / ((max 1 s.error_count : ℕ) : ℚ)) := by
    positivity
  simp only [rawDelta, improvementFactor, correctionSpeed, independence, denomErrors,
    denomAttempts, independentBonusTerm, errorPenaltyTerm, repeatedErrorPenaltyTerm]
  have h1 : 10 * c.improvement_weight *
        (1 / (1 + (s.hint_count : ℚ) / ((max 1 s.error_count : ℕ) : ℚ))) *
        ((i : ℚ) / ((max 1 s.attempt_count : ℕ) : ℚ))
      ≤ 10 * c.improvement_weight *
        (1 / (1 + (s.hint_count : ℚ) / ((max 1 s.error_count : ℕ) : ℚ))) *
        ((i' : ℚ) / ((max 1 s.attempt_count : ℕ) : ℚ)) := by
    apply mul_le_mul_of_nonneg_left _ (by positivity)
    exact (div_le_div_right hda).mpr hq
  have h2 : c.independent_bonus * (i : ℚ) ≤ c.independent_bonus * (i' : ℚ) :=
    mul_le_mul_of_nonneg_left hq hib
  linarith

/-- C3 counterexample: with the *default* config, holding all other signals
fixed (`attempt=1, repeated=2, independent=4, hint=4`, previous mastery 50),
increasing `error_count` from 2 to 3 *increases* `new_mastery` from 58 to 60:
more errors raise the correction speed `1/(1+hint/max(1,errors))`, and with
independence `= 4 > 1` that gain outweighs the error penalty. -/
theorem error_count_can_raise_mastery :
    (update_mastery_and_confidence 50 50
        { attempt_count := 1, error_count := 2, repeated_error_count := 2,
          independent_count := 4, hint_count := 4 } defaultConfig).new_mastery = 58 ∧
    (update_mastery_and_confidence 50 50
        { attempt_count := 1, error_count := 3, repeated_error_count := 2,
          independent_count := 4, hint_count := 4 } defaultConfig).new_mastery = 60 ∧
    (58 : ℤ) < 60 := by
  refine ⟨?_, ?_, by decide⟩
  · show newMastery 50 _ defaultConfig = 58
    simp only [newMastery, masteryDelta, boundedDelta, rawDelta, improvementFactor,
      correctionSpeed, independence, denomErrors, denomAttempts, independentBonusTerm,
      errorPenaltyTerm, repeatedErrorPenaltyTerm, clampQ, clampInt, pyRound, defaultConfig]
    norm_num
  · show newMastery 50 _ defaultConfig = 60
    simp only [newMastery, masteryDelta, boundedDelta, rawDelta, improvementFactor,
      correctionSpeed, independence, denomErrors, denomAttempts, independentBonusTerm,
      errorPenaltyTerm, repeatedErrorPenaltyTerm, clampQ, clampInt, pyRound, defaultConfig]
    norm_num

/-- C3 as amended: holding all other signals and the config fixed, with
well-formed non-negative weights: (1) increasing `independent_count` never
decreases `new_mastery` (needs `improvement_weight ≥ 0` and
`independent_bonus ≥ 0`); (2) increasing `error_count` never increases
`new_mastery` *provided independence does not exceed 1*
(`independent_count ≤ max(1, attempt_count)`) and
`10·improvement_weight ≤ 4·error_penalty` (the defaults give `10 ≤ 10`).
Without the independence proviso the second part is false (see the
counterexample). -/
theorem mastery_monotonicity_amended (c : GrowthConfig) (pm : ℤ) (s : Signals)
    (hw : 0 ≤ c.improvement_weight) :
    (∀ i i' : ℕ, i ≤ i' → 0 ≤ c.independent_bonus →
      newMastery pm { s with independent_count := i } c
        ≤ newMastery pm { s with independent_count := i' } c) ∧
    (∀ e e' : ℕ, e ≤ e' → s.independent_count ≤ denomAttempts s →
      10 * c.improvement_weight ≤ 4 * c.error_penalty →
      newMastery pm { s with error_count := e' } c
        ≤ newMastery pm { s with error_count := e } c) := by
  constructor
  · intro i i' h hib
    exact newMastery_mono_rawDelta pm c (rawDelta_ic_mono s c hw hib h)
  · intro e e' h hind hpen
    induction h with
    | refl => exact le_rfl
    | @step m h ih =>
      exact le_trans
        (newMastery_mono_rawDelta pm c (rawDelta_error_succ_le s c m hw hind hpen)) ih

theorem mastery_monotonicity_amended_witness :
    (0 ≤ defaultConfig.improvement_weight) ∧
    ((2:ℕ) ≤ 5) ∧ (0 ≤ defaultConfig.independent_bonus) ∧
    ((0:ℕ) ≤ 2) ∧
    (Signals.independent_count { attempt_count := 2, independent_count := 1 }
      ≤ denomAttempts { attempt_count := 2, independent_count := 1 }) ∧
    (10 * defaultConfig.improvement_weight ≤ 4 * defaultConfig.error_penalty) ∧
    (newMastery 30 { ({ attempt_count := 2, independent_count := 1 } : Signals) with
        independent_count := 2 } defaultConfig
      ≤ newMastery 30 { ({ attempt_count := 2, independent_count := 1 } : Signals) with
        independent_count := 5 } defaultConfig) ∧
    (newMastery 30 { ({ attempt_count := 2, independent_count := 1 } : Signals) with
        error_count := 2 } defaultConfig
      ≤ newMastery 30 { ({ attempt_count := 2, independent_count := 1 } : Signals) with
        error_count := 0 } defaultConfig) := by
  refine ⟨by norm_num [defaultConfig], by norm_num, by norm_num [defaultConfig],
    by norm_num, by decide, by norm_num [defaultConfig], ?_, ?_⟩
  · exact (mastery_monotonicity_amended defaultConfig 30
      { attempt_count := 2, independent_count := 1 } (by norm_num [defaultConfig])).1
      2 5 (by norm_num) (by norm_num [defaultConfig])
  · exact (mastery_monotonicity_amended defaultConfig 30
      { attempt_count := 2, independent_count := 1 } (by norm_num [defaultConfig])).2
      0 2 (by norm_num) (by decide) (by norm_num [defaultConfig])

/-! ### Order facts for the ranking keys -/

theorem charEq_of_toNat_eq {x y : Char} (h : x.toNat = y.toNat) : x = y := by
  have h1 : Char.ofNat x.toNat = Char.ofNat y.toNat := by rw [h]
  rwa [Char.ofNat_toNat, Char.ofNat_toNat] at h1

theorem stringEq_of_data {a b : String} (h : a.data = b.data) : a = b := by
  cases a; cases b; simp_all

theorem strLeB_total (a : List Char) : ∀ b, strLeB a b = true ∨ strLeB b a = true := by
  induction a with
  | nil => intro b; left; rfl
  | cons x xs ih =>
    intro b
    cases b with
    | nil => right; rfl
    | cons y ys =>
      simp only [strLeB, Bool.or_eq_true, Bool.and_eq_true, decide_eq_true_eq]
      rcases Nat.lt_trichotomy x.toNat y.toNat with h | h | h
      · exact Or.inl (Or.inl h)
      · rcases ih ys with h2 | h2
        · exact Or.inl (Or.inr ⟨h, h2⟩)
        · exact Or.inr (Or.inr ⟨h.symm, h2⟩)
      · exact Or.inr (Or.inl h)

theorem strLeB_trans (a : List Char) : ∀ b c, strLeB a b = true → strLeB b c = true →
    strLeB a c = true := by
  induction a with
  | nil => intro b c _ _; rfl
  | cons x xs ih =>
    intro b c hab hbc
    cases b with
    | nil => simp [strLeB] at hab
    | cons y ys =>
      cases c with
      | nil => simp [strLeB] at hbc
      | cons z zs =>
        simp only [strLeB, Bool.or_eq_true, Bool.and_eq_true, decide_eq_true_eq] at hab hbc ⊢
        rcases hab with h1 | ⟨he1, h1⟩ <;> rcases hbc with h2 | ⟨he2, h2⟩
        · exact Or.inl (h1.trans h2)
        · exact Or.inl (he2 ▸ h1)
        · exact Or.inl (he1 ▸ h2)
        · exact Or.inr ⟨he1.trans he2, ih ys zs h1 h2⟩

theorem strLtB_trichot (a : List Char) : ∀ b, strLtB a b = true ∨ a = b ∨ strLtB b a = true := by
  induction a with
  | nil => intro b; cases b with
    | nil => exact Or.inr (Or.inl rfl)
    | cons y ys => exact Or.inl rfl
  | cons x xs ih =>
    intro b
    cases b with
    | nil => exact Or.inr (Or.inr rfl)
    | cons y ys =>
      simp only [strLtB, Bool.or_eq_true, Bool.and_eq_true, decide_eq_true_eq]
      rcases Nat.lt_trichotomy x.toNat y.toNat with h | h | h
      · exact Or.inl (Or.inl h)
      · rcases ih ys with h2 | h2 | h2
        · exact Or.inl (Or.inr ⟨h, h2⟩)
        · exact Or.inr (Or.inl (by rw [charEq_of_toNat_eq h, h2]))
        · exact Or.inr (Or.inr (Or.inr ⟨h.symm, h2⟩))
      · exact Or.inr (Or.inr (Or.inl h))

theorem strLtB_trans (a : List Char) : ∀ b c, strLtB a b = true → strLtB b c = true →
    strLtB a c = true := by
  induction a with
  | nil => intro b c hab hbc
           cases b with
           | nil => simp [strLtB] at hab
           | cons y ys => cases c with
             | nil => simp [strLtB] at hbc
             | cons z zs => rfl
  | cons x xs ih =>
    intro b c hab hbc
    cases b with
    | nil => simp [strLtB] at hab
    | cons y ys =>
      cases c with
      | nil => simp [strLtB] at hbc
      | cons z zs =>
        simp only [strLtB, Bool.or_eq_true, Bool.and_eq_true, decide_eq_true_eq] at hab hbc ⊢
        rcases hab with h1 | ⟨he1, h1⟩ <;> rcases hbc with h2 | ⟨he2, h2⟩
        · exact Or.inl (h1.trans h2)
        · exact Or.inl (he2 ▸ h1)
        · exact Or.inl (he1 ▸ h2)
        · exact Or.inr ⟨he1.trans he2, ih ys zs h1 h2⟩

instance sessionKeyLe_isTotal : IsTotal TopicScore (fun a b => sessionKeyLe a b = true) := by
  constructor
  intro a b
  simp only [sessionKeyLe, Bool.or_eq_true, Bool.and_eq_true, decide_eq_true_eq]
  rcases Nat.lt_trichotomy a.hit_count b.hit_count with h | h | h
  · exact Or.inr (Or.inl h)
  · rcases strLeB_total a.topic_name.data b.topic_name.data with h2 | h2
    · exact Or.inl (Or.inr ⟨h, h2⟩)
    · exact Or.inr (Or.inr ⟨h.symm, h2⟩)
  · exact Or.inl (Or.inl h)

instance sessionKeyLe_isTrans : IsTrans TopicScore (fun a b => sessionKeyLe a b = true) := by
  constructor
  intro a b c hab hbc
  simp only [sessionKeyLe, Bool.or_eq_true, Bool.and_eq_true, decide_eq_true_eq] at hab hbc ⊢
  rcases hab with h1 | ⟨he1, h1⟩ <;> rcases hbc with h2 | ⟨he2, h2⟩
  · exact Or.inl (by omega)
  · exact Or.inl (by omega)
  · exact Or.inl (by omega)
  · exact Or.inr ⟨by omega, strLeB_trans _ _ _ h1 h2⟩

instance trialKeyLe_isTotal : IsTotal TopicScore (fun a b => trialKeyLe a b = true) := by
  constructor
  intro a b
  simp only [trialKeyLe, Bool.or_eq_true, Bool.and_eq_true, decide_eq_true_eq]
  rcases Nat.lt_trichotomy a.hit_count b.hit_count with h | h | h
  · exact Or.inr (Or.inl h)
  · rcases strLtB_trichot a.parent_topic.data b.parent_topic.data with h2 | h2 | h2
    · exact Or.inl (Or.inr ⟨h, Or.inl h2⟩)
    · have hp : a.parent_topic = b.parent_topic := stringEq_of_data h2
      rcases strLeB_total a.topic_name.data b.topic_name.data with h3 | h3
      · exact Or.inl (Or.inr ⟨h, Or.inr ⟨hp, h3⟩⟩)
      · exact Or.inr (Or.inr ⟨h.symm, Or.inr ⟨hp.symm, h3⟩⟩)
    · exact Or.inr (Or.inr ⟨h.symm, Or.inl h2⟩)
  · exact Or.inl (Or.inl h)

instance trialKeyLe_isTrans : IsTrans TopicScore (fun a b => trialKeyLe a b = true) := by
  constructor
  intro a b c hab hbc
  simp only [trialKeyLe, Bool.or_eq_true, Bool.and_eq_true, decide_eq_true_eq] at hab hbc ⊢
  rcases hab with h1 | ⟨he1, h1⟩ <;> rcases hbc with h2 | ⟨he2, h2⟩
  · exact Or.inl (by omega)
  · exact Or.inl (by omega)
  · exact Or.inl (by omega)
  · refine Or.inr ⟨by omega, ?_⟩
    rcases h1 with hp1 | ⟨hp1, hn1⟩ <;> rcases h2 with hp2 | ⟨hp2, hn2⟩
    · exact Or.inl (strLtB_trans _ _ _ hp1 hp2)
    · exact Or.inl (hp2 ▸ hp1)
    · exact Or.inl (hp1 ▸ hp2)
    · exact Or.inr ⟨hp1.trans hp2, strLeB_trans _ _ _ hn1 hn2⟩

/-! ### Claim C5 -/

/-- C5 counterexample: the trial extractor's `mentioned_topics` does *not*
break hit-count ties by topic name.  On `"decimal angle"` both `Decimals`
(parent `Arithmetic`) and `Angles` (parent `Geometry`) have hit count 1; the
trial ranking puts `Decimals` first (parent ties first), while the
claimed `(-hit_count, topic_name)` order — the session ranking — puts
`Angles` first. -/
theorem trial_rank_not_name_tiebreak :
    (mentionedTopics "decimal angle".data).map (fun t => t.topic_name)
      = ["Decimals", "Angles"] ∧
    (sessionRank (detectTopicsInText "decimal angle".data)).map (fun t => t.topic_name)
      = ["Angles", "Decimals"] ∧
    (["Decimals", "Angles"] : List String) ≠ ["Angles", "Decimals"] :=
  ⟨by decide, by decide, by decide⟩

/-- C5 as amended: the session extractor's `detected_topics` ranking sorts by
`(-hit_count, topic_name)`; the trial extractor's `mentioned_topics` ranking
sorts by `(-hit_count, parent_topic, topic_name)` (parent before name in the
tie-break).  Both are permutations of the detected score set, sorted by their
respective key orders. -/
theorem ranking_key_orders (l : List TopicScore) :
    ((sessionRank l).Perm l ∧
      List.Sorted (fun a b => sessionKeyLe a b = true) (sessionRank l)) ∧
    ((trialRank l).Perm l ∧
      List.Sorted (fun a b => trialKeyLe a b = true) (trialRank l)) :=
  ⟨⟨List.perm_insertionSort _ l, List.sorted_insertionSort _ l⟩,
   ⟨List.perm_insertionSort _ l, List.sorted_insertionSort _ l⟩⟩

/-! ### Claim C6 -/

/-- C6 counterexample: `"Saturday practice"` contains `"sat"` as a
case-insensitive substring, yet the inferred focus domains are the default
`{Arithmetic, Algebra, Geometry}` — the code requires a word-delimited
`\bSAT\b`/`\bACT\b`, not a substring. -/
theorem focus_domains_substring_cex :
    containsCI "sat" (normText "Saturday practice".data) = true ∧
    focusDomains "Saturday practice" = ["Arithmetic", "Algebra", "Geometry"] ∧
    (["Arithmetic", "Algebra", "Geometry"] : List String)
      ≠ ["Algebra", "Geometry", "Data & Probability", "Word Problems"] :=
  ⟨by decide, by decide, by decide⟩

/-- C6 as amended: for every target exam string, the focus domains are
`{Algebra, Geometry, Data & Probability, Word Problems}` exactly when the
normalized exam text is non-empty and contains `SAT` or `ACT` as a
case-insensitive *whole word* (`\b`-delimited); otherwise they are
`{Arithmetic, Algebra, Geometry}`. -/
theorem focus_domains_word_boundary (exam : String) :
    focusDomains exam =
      if normText exam.data ≠ [] ∧ (hasWordTokenFrom "sat".data none (normText exam.data)
          || hasWordTokenFrom "act".data none (normText exam.data)) = true then
        ["Algebra", "Geometry", "Data & Probability", "Word Problems"]
      else ["Arithmetic", "Algebra", "Geometry"] := by
  unfold focusDomains
  split_ifs <;> simp_all

/-! ### Claim C8 -/

/-- C8: for every detected misconception `m`, a mental-block candidate with
description `m` (and `session_count = (occurrences of m in the most recent 25
sessions' misconceptions) + 1`) is emitted iff `session_count` reaches
`mental_block_session_threshold` or any avoidance pattern matched
(`avoidance > 0`).  In particular, with threshold 3 and no avoidance, a
misconception recurring over 3 consecutive sessions produces a candidate
exactly at its 3rd occurrence. -/
theorem mental_block_candidacy (detected_mis : List String) (recent : List (List String))
    (avoidance : ℕ) (c : GrowthConfig) (m : String) (hm : m ∈ detected_mis) :
    (∃ cand ∈ mentalBlockCandidates detected_mis recent avoidance c,
        cand.description = m ∧ cand.session_count = misCount recent m + 1) ↔
      (c.mental_block_session_threshold ≤ ((misCount recent m + 1 : ℕ) : ℤ) ∨
        0 < avoidance) := by
  constructor
  · rintro ⟨cand, hc, hdesc, _⟩
    simp only [mentalBlockCandidates] at hc
    rcases List.mem_filterMap.mp hc with ⟨a, _, hfa⟩
    by_cases hcond : c.mental_block_session_threshold ≤ ((misCount recent a + 1 : ℕ) : ℤ) ∨
        0 < avoidance
    · rw [if_pos hcond] at hfa
      obtain rfl := Option.some.inj hfa
      have ha : a = m := hdesc
      exact ha ▸ hcond
    · rw [if_neg hcond] at hfa
      exact absurd hfa (by simp)
  · intro hcond
    refine ⟨⟨m, misCount recent m + 1, avoidance,
      c.mental_block_base_severity + (if 0 < avoidance then c.mental_block_avoidance_bonus else 0),
      c.mental_block_repeat_delta + (if 0 < avoidance then c.mental_block_avoidance_bonus else 0)⟩,
      ?_, rfl, rfl⟩
    simp only [mentalBlockCandidates]
    exact List.mem_filterMap.mpr ⟨m, hm, by rw [if_pos hcond]⟩

theorem mental_block_candidacy_witness :
    ("Sign error with negatives" ∈ ["Sign error with negatives"]) ∧
    ((∃ cand ∈ mentalBlockCandidates ["Sign error with negatives"]
          [["Sign error with negatives"], ["Sign error with negatives"]] 0 defaultConfig,
        cand.description = "Sign error with negatives" ∧
        cand.session_count =
          misCount [["Sign error with negatives"], ["Sign error with negatives"]]
            "Sign error with negatives" + 1) ↔
      (defaultConfig.mental_block_session_threshold ≤
          ((misCount [["Sign error with negatives"], ["Sign error with negatives"]]
            "Sign error with negatives" + 1 : ℕ) : ℤ) ∨ 0 < 0)) :=
  ⟨by decide,
    mental_block_candidacy ["Sign error with negatives"]
      [["Sign error with negatives"], ["Sign error with negatives"]] 0 defaultConfig
      "Sign error with negatives" (by decide)⟩

/-! ### Claim C4 -/

/-- C4: end-to-end session example on
`"Tutor: Add 1/4 + 1/4.\nStudent: 1/2"` with the default config, no prior
sessions, and the topic `Fractions` previously at mastery 15 / confidence 50:
`detected_topics` includes `Fractions`; the two turns split as Tutor/Student;
the Student turn gives `Fractions` exactly `attempt_count = 1` and
`independent_count = 1` with all other counters (in particular `error_count`
and `hint_count`) zero; and the growth update yields
`correction_speed = 1`, `independence = 1`, `improvement_factor = 10`,
`mastery_delta = 12` (the raw `12.0` is already at the cap) and
`new_mastery = 27`. -/
theorem session_example_fractions :
    ("Fractions" ∈ detectedTopics "Tutor: Add 1/4 + 1/4.\nStudent: 1/2".data) ∧
    (splitTurns "Tutor: Add 1/4 + 1/4.\nStudent: 1/2".data
      = [⟨"Tutor", "Add 1/4 + 1/4.".data⟩, ⟨"Student", "1/2".data⟩]) ∧
    (lookupSig (sessionSignals "Tutor: Add 1/4 + 1/4.\nStudent: 1/2".data
        [⟨"Fractions", 15, 50⟩] []) "Fractions"
      = { attempt_count := 1, independent_count := 1 }) ∧
    correctionSpeed { attempt_count := 1, independent_count := 1 } = 1 ∧
    independence { attempt_count := 1, independent_count := 1 } = 1 ∧
    improvementFactor { attempt_count := 1, independent_count := 1 } defaultConfig = 10 ∧
    masteryDelta { attempt_count := 1, independent_count := 1 } defaultConfig = 12 ∧
    (perTopicUpdates "Tutor: Add 1/4 + 1/4.\nStudent: 1/2".data [⟨"Fractions", 15, 50⟩] []
        defaultConfig).map (fun p => (p.1, p.2.previous_mastery, p.2.new_mastery))
      = [("Fractions", 15, 27)] := by
  refine ⟨by decide, by decide, by decide, ?_, ?_, ?_, ?_, ?_⟩
  · simp only [correctionSpeed, denomErrors]; norm_num
  · simp only [independence, denomAttempts]; norm_num
  · simp only [improvementFactor, correctionSpeed, independence, denomErrors, denomAttempts,
      defaultConfig]
    norm_num
  · simp only [masteryDelta, boundedDelta, rawDelta, improvementFactor, correctionSpeed,
      independence, denomErrors, denomAttempts, independentBonusTerm, errorPenaltyTerm,
      repeatedErrorPenaltyTerm, clampQ, pyRound, defaultConfig]
    norm_num
  · have hact : activeTopics "Tutor: Add 1/4 + 1/4.\nStudent: 1/2".data
        [⟨"Fractions", 15, 50⟩] [] = ["Fractions"] := by decide
    have hsig : lookupSig (sessionSignals "Tutor: Add 1/4 + 1/4.\nStudent: 1/2".data
        [⟨"Fractions", 15, 50⟩] []) "Fractions"
        = { attempt_count := 1, independent_count := 1 } := by decide
    have hprev : prevScores [⟨"Fractions", 15, 50⟩] "Fractions" = (15, 50) := by decide
    have hupd : (update_mastery_and_confidence 15 50
        { attempt_count := 1, independent_count := 1 } defaultConfig).new_mastery = 27 := by
      show newMastery 15 { attempt_count := 1, independent_count := 1 } defaultConfig = 27
      simp only [newMastery, masteryDelta, boundedDelta, rawDelta, improvementFactor,
        correctionSpeed, independence, denomErrors, denomAttempts, independentBonusTerm,
        errorPenaltyTerm, repeatedErrorPenaltyTerm, clampQ, clampInt, pyRound, defaultConfig]
      norm_num
    simp [perTopicUpdates, hact, hsig, hprev, hupd]

/-! ### Claim C9: whitespace-word lemmas and turn-splitting shapes -/

theorem wordsOf_nil : wordsOf [] = [] := by rw [wordsOf]

theorem wordsOf_cons_space {c : Char} (h : isSpaceChar c = true) (s : List Char) :
    wordsOf (c :: s) = wordsOf s := by
  rw [wordsOf, if_pos h]

theorem wordsOf_cons_nonspace {c : Char} (h : isSpaceChar c = false) (s : List Char) :
    wordsOf (c :: s) = (c :: s.takeWhile (fun d => !isSpaceChar d))
      :: wordsOf (s.dropWhile (fun d => !isSpaceChar d)) := by
  rw [wordsOf, if_neg (by simp [h])]

theorem takeWhile_append_of_all {p : Char → Bool} {a : List Char} (b : List Char)
    (h : ∀ d ∈ a, p d = true) : (a ++ b).takeWhile p = a ++ b.takeWhile p := by
  induction a with
  | nil => simp
  | cons x xs ih =>
    have hx : p x = true := h x (by simp)
    simp only [List.cons_append, List.takeWhile_cons, hx, if_true]
    rw [ih (fun d hd => h d (by simp [hd]))]

theorem dropWhile_append_of_all {p : Char → Bool} {a : List Char} (b : List Char)
    (h : ∀ d ∈ a, p d = true) : (a ++ b).dropWhile p = b.dropWhile p := by
  induction a with
  | nil => simp
  | cons x xs ih =>
    have hx : p x = true := h x (by simp)
    simp only [List.cons_append, List.dropWhile_cons, hx, if_true]
    exact ih (fun d hd => h d (by simp [hd]))

theorem head_dropWhile_false {p : Char → Bool} {l : List Char} {d : Char} {q : List Char}
    (h : l.dropWhile p = d :: q) : p d = false := by
  induction l with
  | nil => simp at h
  | cons x xs ih =>
    rw [List.dropWhile_cons] at h
    by_cases hx : p x = true
    · rw [if_pos hx] at h; exact ih h
    · rw [if_neg hx] at h
      cases h
      exact Bool.eq_false_iff.mpr hx



theorem wordsOf_append_space_aux {c : Char} (hc : isSpaceChar c = true) :
    ∀ (n : ℕ) (a b : List Char), a.length ≤ n →
      wordsOf (a ++ c :: b) = wordsOf a ++ wordsOf b := by
  intro n
  induction n with
  | zero =>
    intro a b ha
    have hanil : a = [] := by cases a <;> simp_all
    subst hanil
    simp [wordsOf_cons_space hc, wordsOf_nil]
  | succ n ih =>
    intro a b ha
    match a with
    | [] => simp [wordsOf_cons_space hc, wordsOf_nil]
    | x :: a' =>
      by_cases hx : isSpaceChar x = true
      · rw [List.cons_append, wordsOf_cons_space hx, wordsOf_cons_space hx]
        exact ih a' b (by simp only [List.length_cons] at ha; omega)
      · have hx' : isSpaceChar x = false := Bool.eq_false_iff.mpr hx
        rw [List.cons_append, wordsOf_cons_nonspace hx', wordsOf_cons_nonspace hx']
        by_cases hall : ∀ d ∈ a', isSpaceChar d = false
        · have hallP : ∀ d ∈ a', (!isSpaceChar d) = true := fun d hd => by simp [hall d hd]
          have htk : a'.takeWhile (fun d => !isSpaceChar d) = a' := by
            conv_lhs => rw [← List.append_nil a']
            rw [takeWhile_append_of_all _ hallP]
            simp
          have hdr : a'.dropWhile (fun d => !isSpaceChar d) = [] :=
            List.dropWhile_eq_nil_iff.mpr hallP
          rw [takeWhile_append_of_all _ hallP, dropWhile_append_of_all _ hallP,
            List.takeWhile_cons, List.dropWhile_cons, htk, hdr]
          simp only [hc, Bool.not_true, Bool.false_eq_true, if_false, List.append_nil,
            wordsOf_nil, List.nil_append]
          rw [wordsOf_cons_space hc]
          simp
        · -- a' contains a whitespace character
          have hdq : a'.dropWhile (fun d => !isSpaceChar d) ≠ [] := by
            intro hnil
            exact hall (fun d hd => by
              have := List.dropWhile_eq_nil_iff.mp hnil d hd
              simpa using this)
          obtain ⟨d, q, hdq'⟩ : ∃ d q, a'.dropWhile (fun d => !isSpaceChar d) = d :: q := by
            cases hh : a'.dropWhile (fun d => !isSpaceChar d) with
            | nil => exact absurd hh hdq
            | cons d q => exact ⟨d, q, rfl⟩
          have hd : isSpaceChar d = true := by
            have := head_dropWhile_false hdq'
            simpa using this
          set w := a'.takeWhile (fun e => !isSpaceChar e) with hw
          have hallp : ∀ e ∈ w, (!isSpaceChar e) = true := fun e he =>
            List.mem_takeWhile_imp (p := fun e => !isSpaceChar e) he
          have ha' : a' = w ++ d :: q := by
            rw [hw, ← hdq']
            exact (List.takeWhile_append_dropWhile _ _).symm
          have hlen : q.length ≤ n := by
            have h1 : a'.length = w.length + 1 + q.length := by
              rw [ha']; simp; omega
            simp only [List.length_cons] at ha
            omega
          rw [ha', List.append_assoc, List.cons_append]
          simp only [takeWhile_append_of_all _ hallp, dropWhile_append_of_all _ hallp,
            List.takeWhile_cons, List.dropWhile_cons, hd, Bool.not_true, Bool.false_eq_true,
            if_false]
          simp only [wordsOf_cons_space hd]
          rw [ih q b hlen]
          simp

theorem wordsOf_append_space {c : Char} (hc : isSpaceChar c = true) (a b : List Char) :
    wordsOf (a ++ c :: b) = wordsOf a ++ wordsOf b :=
  wordsOf_append_space_aux hc a.length a b le_rfl



theorem wordsOf_allspace {t : List Char} (h : ∀ c ∈ t, isSpaceChar c = true) :
    wordsOf t = [] := by
  induction t with
  | nil => exact wordsOf_nil
  | cons x xs ih =>
    rw [wordsOf_cons_space (h x (by simp))]
    exact ih (fun c hc => h c (by simp [hc]))

theorem wordsOf_append_allspace {t : List Char} (a : List Char)
    (h : ∀ c ∈ t, isSpaceChar c = true) : wordsOf (a ++ t) = wordsOf a := by
  cases t with
  | nil => simp
  | cons x xs =>
    rw [wordsOf_append_space (h x (by simp)) a xs,
      wordsOf_allspace (t := xs) (fun c hc => h c (by simp [hc]))]
    simp

theorem wordsOf_rstrip (s : List Char) : wordsOf (rstripChars s) = wordsOf s := by
  have hdec : s = rstripChars s ++ (s.reverse.takeWhile isSpaceChar).reverse := by
    conv_lhs => rw [← List.reverse_reverse s,
      ← List.takeWhile_append_dropWhile isSpaceChar s.reverse]
    rw [List.reverse_append]
    rfl
  have hsp : ∀ c ∈ (s.reverse.takeWhile isSpaceChar).reverse, isSpaceChar c = true := by
    intro c hc
    exact List.mem_takeWhile_imp (List.mem_reverse.mp hc)
  conv_rhs => rw [hdec]
  exact (wordsOf_append_allspace _ hsp).symm

theorem wordsOf_lstrip (s : List Char) : wordsOf (lstripChars s) = wordsOf s := by
  induction s with
  | nil => rfl
  | cons x xs ih =>
    by_cases hx : isSpaceChar x = true
    · rw [lstripChars, List.dropWhile_cons, if_pos hx, wordsOf_cons_space hx]
      exact ih
    · rw [lstripChars, List.dropWhile_cons, if_neg hx]

theorem wordsOf_eq_nil_iff_isBlank (s : List Char) :
    wordsOf s = [] ↔ isBlank s = true := by
  constructor
  · intro h
    induction s with
    | nil => rfl
    | cons x xs ih =>
      by_cases hx : isSpaceChar x = true
      · rw [wordsOf_cons_space hx] at h
        simpa [isBlank, hx] using ih h
      · rw [wordsOf_cons_nonspace (Bool.eq_false_iff.mpr hx)] at h
        exact absurd h (by simp)
  · intro h
    exact wordsOf_allspace (by simpa [isBlank, List.all_eq_true] using h)

theorem collapseRun_eq (t : List Char) : collapseRun t = collapseWS (lstripChars t) := by
  induction t with
  | nil => rfl
  | cons x xs ih =>
    by_cases hx : isSpaceChar x = true
    · rw [collapseRun, if_pos hx, lstripChars, List.dropWhile_cons, if_pos hx]
      exact ih
    · rw [collapseRun, if_neg hx, lstripChars, List.dropWhile_cons, if_neg hx, collapseWS,
        if_neg hx]

theorem collapseWS_word (w : List Char) (r : List Char)
    (h : ∀ d ∈ w, isSpaceChar d = false) : collapseWS (w ++ r) = w ++ collapseWS r := by
  induction w with
  | nil => simp
  | cons x xs ih =>
    have hx : isSpaceChar x = false := h x (by simp)
    rw [List.cons_append, collapseWS, if_neg (by simp [hx])]
    rw [ih (fun d hd => h d (by simp [hd]))]
    rfl

theorem unwords_cons_ne_nil (w : List Char) {ws : List (List Char)} (h : ws ≠ []) :
    unwords (w :: ws) = w ++ ' ' :: unwords ws := by
  cases ws with
  | nil => exact absurd rfl h
  | cons y ys => rfl



/-- On a string with no leading and no trailing whitespace, collapsing
whitespace runs agrees with joining the whitespace-separated words by single
spaces. -/
theorem collapseWS_eq_unwords_aux :
    ∀ (n : ℕ) (u : List Char), u.length ≤ n →
      (∀ c, u.head? = some c → isSpaceChar c = false) →
      (∀ c, u.getLast? = some c → isSpaceChar c = false) →
      collapseWS u = unwords (wordsOf u) := by
  intro n
  induction n with
  | zero =>
    intro u hu _ _
    have : u = [] := by cases u <;> simp_all
    subst this
    rw [wordsOf_nil]
    rfl
  | succ n ih =>
    intro u hu hlead htrail
    match u with
    | [] => rw [wordsOf_nil]; rfl
    | x :: t =>
      have hx : isSpaceChar x = false := hlead x rfl
      set w := t.takeWhile (fun d => !isSpaceChar d) with hw
      set r := t.dropWhile (fun d => !isSpaceChar d) with hr
      have ht : t = w ++ r := (List.takeWhile_append_dropWhile _ _).symm
      have hwns : ∀ d ∈ w, isSpaceChar d = false := by
        intro d hd
        have := List.mem_takeWhile_imp (p := fun d => !isSpaceChar d) hd
        simpa using this
      have hcw : collapseWS (x :: t) = x :: (w ++ collapseWS r) := by
        rw [collapseWS, if_neg (by simp [hx]), ht, collapseWS_word w r hwns]
      have hwords : wordsOf (x :: t) = (x :: w) :: wordsOf r := by
        rw [wordsOf_cons_nonspace hx, ← hw, ← hr]
      cases hrc : r with
      | nil =>
        rw [hcw, hwords, hrc, wordsOf_nil]
        show x :: (w ++ collapseWS []) = x :: w
        rw [show collapseWS [] = [] from rfl, List.append_nil]
      | cons d r' =>
        have hd : isSpaceChar d = true := by
          have := head_dropWhile_false (hr ▸ hrc)
          simpa using this
        -- the tail r' must contain a non-space character, else u would end in
        -- whitespace
        have hlast : ∃ e ∈ r', isSpaceChar e = false := by
          by_contra hno
          push_neg at hno
          have hallsp : ∀ e ∈ d :: r', isSpaceChar e = true := by
            intro e he
            rcases List.mem_cons.mp he with rfl | he'
            · exact hd
            · exact Bool.not_eq_false (isSpaceChar e) |>.mp (hno e he')
          have hne : (d :: r' : List Char) ≠ [] := by simp
          have : (x :: t).getLast? = (d :: r').getLast? := by
            rw [ht, hrc]
            rw [show x :: (w ++ d :: r') = (x :: w) ++ d :: r' by simp,
              List.getLast?_append_of_ne_nil _ hne]
          obtain ⟨e, he⟩ : ∃ e, (d :: r').getLast? = some e :=
            ⟨(d :: r').getLast hne, List.getLast?_eq_getLast _ hne⟩
          have hesp : isSpaceChar e = true := by
            apply hallsp
            rw [List.getLast?_eq_getLast _ hne, Option.some.injEq] at he
            exact he ▸ List.getLast_mem hne
          have hfin : isSpaceChar e = false := htrail e (by rw [this, he])
          rw [hesp] at hfin
          exact absurd hfin (by decide)
        set v := lstripChars r' with hv
        have hvne : v ≠ [] := by
          rw [hv, lstripChars]
          intro hnil
          obtain ⟨e, he, hens⟩ := hlast
          have hesp := List.dropWhile_eq_nil_iff.mp hnil e he
          rw [hesp] at hens
          exact absurd hens (by decide)
        have hvlead : ∀ c, v.head? = some c → isSpaceChar c = false := by
          intro c hc
          cases hvc : v with
          | nil => rw [hvc] at hc; simp at hc
          | cons c0 v0 =>
            have := head_dropWhile_false (p := isSpaceChar) (hv ▸ hvc)
            rw [hvc] at hc
            simp only [List.head?_cons, Option.some.injEq] at hc
            subst hc
            exact this
        have hvsuffix : r' = r'.takeWhile isSpaceChar ++ v := by
          rw [hv, lstripChars]
          exact (List.takeWhile_append_dropWhile _ _).symm
        have hvtrail : ∀ c, v.getLast? = some c → isSpaceChar c = false := by
          intro c hc
          apply htrail
          rw [ht, hrc, hvsuffix]
          rw [show x :: (w ++ d :: (r'.takeWhile isSpaceChar ++ v))
              = (x :: w ++ d :: r'.takeWhile isSpaceChar) ++ v by simp,
            List.getLast?_append_of_ne_nil _ hvne]
          exact hc
        have hvlen : v.length ≤ n := by
          have h1 : v.length ≤ r'.length := by
            rw [hv, lstripChars]
            exact (List.dropWhile_sublist _).length_le
          have h2 : r.length ≤ t.length := by
            rw [hr]
            exact (List.dropWhile_sublist _).length_le
          rw [hrc] at h2
          simp only [List.length_cons] at h2 hu
          omega
        have hihv : collapseWS v = unwords (wordsOf v) := ih v hvlen hvlead hvtrail
        have hwordsr : wordsOf r = wordsOf v := by
          rw [hrc, wordsOf_cons_space hd, hv, wordsOf_lstrip]
        have hwvne : wordsOf v ≠ [] := by
          intro hwv
          have := (wordsOf_eq_nil_iff_isBlank v).mp hwv
          cases hvc : v with
          | nil => exact hvne hvc
          | cons c0 v0 =>
            have hns := hvlead c0 (by rw [hvc]; rfl)
            rw [hvc] at this
            simp [isBlank, hns] at this
        have hcollr : collapseWS r = ' ' :: collapseWS v := by
          rw [hrc, collapseWS, if_pos hd, collapseRun_eq, ← hv]
        rw [hcw, hwords, hcollr, hihv, hwordsr, unwords_cons_ne_nil _ hwvne]
        simp



theorem head?_dropWhile_false {p : Char → Bool} {l : List Char} {c : Char}
    (h : (l.dropWhile p).head? = some c) : p c = false := by
  cases hh : l.dropWhile p with
  | nil => rw [hh] at h; simp at h
  | cons d q =>
    rw [hh] at h
    simp only [List.head?_cons, Option.some.injEq] at h
    exact h ▸ head_dropWhile_false hh

theorem rstrip_decomp (s : List Char) :
    s = rstripChars s ++ (s.reverse.takeWhile isSpaceChar).reverse := by
  conv_lhs => rw [← List.reverse_reverse s,
    ← List.takeWhile_append_dropWhile isSpaceChar s.reverse]
  rw [List.reverse_append]
  rfl

theorem normText_eq_unwords (s : List Char) : normText s = unwords (wordsOf s) := by
  have hlead : ∀ c, (stripChars s).head? = some c → isSpaceChar c = false := by
    intro c hc
    rw [stripChars] at hc
    have hne : rstripChars (lstripChars s) ≠ [] := by
      intro h
      rw [h] at hc
      simp at hc
    have hheads : (lstripChars s).head? = some c := by
      conv_lhs => rw [rstrip_decomp (lstripChars s)]
      rw [List.head?_append_of_ne_nil _ hne]
      exact hc
    exact head?_dropWhile_false (p := isSpaceChar) hheads
  have htrail : ∀ c, (stripChars s).getLast? = some c → isSpaceChar c = false := by
    intro c hc
    rw [stripChars, rstripChars, List.getLast?_reverse] at hc
    exact head?_dropWhile_false hc
  rw [normText,
    collapseWS_eq_unwords_aux (stripChars s).length (stripChars s) le_rfl hlead htrail]
  congr 1
  rw [stripChars, wordsOf_rstrip, wordsOf_lstrip]

theorem normText_congr {s t : List Char} (h : wordsOf s = wordsOf t) :
    normText s = normText t := by
  rw [normText_eq_unwords, normText_eq_unwords, h]



theorem splitlinesGo_wordsOf (cur s : List Char) :
    (splitlinesGo cur s).flatMap wordsOf = wordsOf (cur.reverse ++ s) := by
  induction cur, s using splitlinesGo.induct with
  | case1 cur => simp [splitlinesGo]
  | case2 cur t ih =>
    cases t with
    | nil =>
      simp only [splitlinesGo]
      rw [wordsOf_append_allspace cur.reverse (by decide)]
      simp
    | cons c0 t0 =>
      simp only [splitlinesGo, List.flatMap_cons]
      rw [ih, wordsOf_append_space (by decide) cur.reverse ('\n' :: c0 :: t0),
        wordsOf_cons_space (by decide)]
      simp
  | case3 cur t ih =>
    cases t with
    | nil =>
      simp only [splitlinesGo]
      rw [wordsOf_append_allspace cur.reverse (by decide)]
      simp
    | cons c0 t0 =>
      simp only [splitlinesGo, List.flatMap_cons]
      rw [ih, wordsOf_append_space (by decide) cur.reverse (c0 :: t0)]
      simp
  | case4 cur t hne ih =>
    cases t with
    | nil =>
      simp only [splitlinesGo]
      rw [wordsOf_append_allspace cur.reverse (by decide)]
      simp
    | cons c0 t0 =>
      simp only [splitlinesGo, List.flatMap_cons]
      rw [ih, wordsOf_append_space (by decide) cur.reverse (c0 :: t0)]
      simp
  | case5 cur t ih =>
    cases t with
    | nil =>
      simp only [splitlinesGo]
      rw [wordsOf_append_allspace cur.reverse (by decide)]
      simp
    | cons c0 t0 =>
      simp only [splitlinesGo, List.flatMap_cons]
      rw [ih, wordsOf_append_space (by decide) cur.reverse (c0 :: t0)]
      simp
  | case6 cur t ih =>
    cases t with
    | nil =>
      simp only [splitlinesGo]
      rw [wordsOf_append_allspace cur.reverse (by decide)]
      simp
    | cons c0 t0 =>
      simp only [splitlinesGo, List.flatMap_cons]
      rw [ih, wordsOf_append_space (by decide) cur.reverse (c0 :: t0)]
      simp
  | case7 cur t ih =>
    cases t with
    | nil =>
      simp only [splitlinesGo]
      rw [wordsOf_append_allspace cur.reverse (by decide)]
      simp
    | cons c0 t0 =>
      simp only [splitlinesGo, List.flatMap_cons]
      rw [ih, wordsOf_append_space (by decide) cur.reverse (c0 :: t0)]
      simp
  | case8 cur t ih =>
    cases t with
    | nil =>
      simp only [splitlinesGo]
      rw [wordsOf_append_allspace cur.reverse (by decide)]
      simp
    | cons c0 t0 =>
      simp only [splitlinesGo, List.flatMap_cons]
      rw [ih, wordsOf_append_space (by decide) cur.reverse (c0 :: t0)]
      simp
  | case9 cur t ih =>
    cases t with
    | nil =>
      simp only [splitlinesGo]
      rw [wordsOf_append_allspace cur.reverse (by decide)]
      simp
    | cons c0 t0 =>
      simp only [splitlinesGo, List.flatMap_cons]
      rw [ih, wordsOf_append_space (by decide) cur.reverse (c0 :: t0)]
      simp
  | case10 cur ch t h1 h2 h3 h4 h5 h6 h7 h8 ih =>
    simp only [splitlinesGo]
    rw [ih]
    congr 1
    simp

theorem splitlines_wordsOf (s : List Char) :
    (splitlines s).flatMap wordsOf = wordsOf s := by
  cases s with
  | nil => rw [wordsOf_nil]; rfl
  | cons c t =>
    show (splitlinesGo [] (c :: t)).flatMap wordsOf = wordsOf (c :: t)
    rw [splitlinesGo_wordsOf]
    rfl

theorem wordsOf_flatMap_newline (lines : List (List Char)) :
    wordsOf (lines.flatMap (fun l => '\n' :: l)) = lines.flatMap wordsOf := by
  induction lines with
  | nil => exact wordsOf_nil
  | cons l ls ih =>
    simp only [List.flatMap_cons]
    rw [List.cons_append, wordsOf_cons_space (by decide)]
    cases ls with
    | nil => simp
    | cons l2 ls2 =>
      have hmatch : (l2 :: ls2).flatMap (fun l => '\n' :: l) = '\n' :: (l2 ++ (ls2.flatMap (fun l => '\n' :: l))) := by
        simp
      rw [hmatch, wordsOf_append_space (by decide) l]
      rw [hmatch] at ih
      rw [wordsOf_cons_space (by decide)] at ih
      rw [ih]

theorem wordsOf_flatMap_rstrip (lines : List (List Char)) :
    (lines.map rstripChars).flatMap wordsOf = lines.flatMap wordsOf := by
  induction lines with
  | nil => rfl
  | cons l ls ih =>
    simp only [List.map_cons, List.flatMap_cons]
    rw [wordsOf_rstrip, ih]

theorem splitlinesGo_ne_nil (cur s : List Char) : splitlinesGo cur s ≠ [] := by
  induction cur, s using splitlinesGo.induct with
  | case1 cur => simp [splitlinesGo]
  | case2 cur t ih => cases t <;> simp [splitlinesGo]
  | case3 cur t ih => cases t <;> simp [splitlinesGo]
  | case4 cur t hne ih =>
    cases t with
    | nil => simp [splitlinesGo]
    | cons c0 t0 => simp only [splitlinesGo]; simp
  | case5 cur t ih => cases t <;> simp [splitlinesGo]
  | case6 cur t ih => cases t <;> simp [splitlinesGo]
  | case7 cur t ih => cases t <;> simp [splitlinesGo]
  | case8 cur t ih => cases t <;> simp [splitlinesGo]
  | case9 cur t ih => cases t <;> simp [splitlinesGo]
  | case10 cur ch t h1 h2 h3 h4 h5 h6 h7 h8 ih =>
    simp only [splitlinesGo]
    exact ih

theorem splitlines_eq_nil_iff (s : List Char) : splitlines s = [] ↔ s = [] := by
  cases s with
  | nil => simp [splitlines]
  | cons c t =>
    constructor
    · intro h
      exact absurd h (splitlinesGo_ne_nil [] (c :: t))
    · intro h
      simp at h


theorem splitTurnsGo_no_speaker (lines : List (List Char))
    (h : ∀ l ∈ lines, matchSpeaker l = none) (sp : String) (cur : List Char) :
    splitTurnsGo sp cur lines =
      if isBlank (cur ++ lines.flatMap (fun l => '\n' :: l)) then []
      else [⟨sp, normText (cur ++ lines.flatMap (fun l => '\n' :: l))⟩] := by
  induction lines generalizing cur with
  | nil => simp [splitTurnsGo]
  | cons l ls ih =>
    have hl : matchSpeaker l = none := h l (by simp)
    rw [splitTurnsGo, hl]
    rw [ih (fun x hx => h x (by simp [hx]))]
    simp only [List.flatMap_cons, List.append_assoc, List.cons_append, List.nil_append]

theorem splitTurnsGo_all_speaker (lines : List (List Char))
    (h : ∀ l ∈ lines, speakerLineNB l = true) (sp : String) (cur : List Char)
    (hcur : isBlank cur = false) :
    splitTurnsGo sp cur lines =
      ⟨sp, normText cur⟩ :: lines.filterMap
        (fun l => (matchSpeaker l).map (fun sr => ⟨sr.1, normText sr.2⟩)) := by
  induction lines generalizing sp cur with
  | nil => simp [splitTurnsGo, hcur]
  | cons l ls ih =>
    have hsome : ∃ sr, matchSpeaker l = some sr ∧ isBlank sr.2 = false := by
      have hl := h l (by simp)
      rw [speakerLineNB] at hl
      cases hm : matchSpeaker l with
      | none => rw [hm] at hl; simp at hl
      | some sr =>
        rw [hm] at hl
        exact ⟨sr, rfl, by simpa using hl⟩
    obtain ⟨sr, hm, hrest⟩ := hsome
    rw [splitTurnsGo, hm]
    dsimp only
    rw [if_neg (by simp [hcur])]
    rw [ih (fun x hx => h x (by simp [hx])) sr.1 sr.2 hrest]
    simp [hm]

/-- C9 counterexample: in `"Tutor:\nStudent: 1"` every line is a
Tutor:/Student:-prefixed line (2 speaker-prefixed blocks), yet `_split_turns`
produces only one turn: the `Tutor:` line's accumulated text is blank, so it
is never flushed. -/
theorem speaker_line_with_blank_rest_dropped :
    (∀ l ∈ splitlines "Tutor:\nStudent: 1".data,
      (matchSpeaker (rstripChars l)).isSome = true) ∧
    (splitlines "Tutor:\nStudent: 1".data).length = 2 ∧
    splitTurns "Tutor:\nStudent: 1".data = [⟨"Student", "1".data⟩] ∧
    (splitTurns "Tutor:\nStudent: 1".data).length ≠ 2 :=
  ⟨by decide, by decide, by decide, by decide⟩

/-- C9 as amended: (a) if every line of the transcript is a speaker-prefixed
line whose remainder after the colon is *non-blank*, `_split_turns` produces
exactly one turn per line, holding the title-cased speaker and the normalized
remainder; (b) unchanged from the claim: a non-blank transcript with zero
speaker-prefixed lines yields exactly one `Unknown` turn holding the
whitespace-normalized full text. -/
theorem turn_splitting_shapes (text : List Char) :
    ((∀ l ∈ splitlines text, speakerLineNB (rstripChars l) = true) →
      splitTurns text = (splitlines text).filterMap
        (fun l => (matchSpeaker (rstripChars l)).map (fun sr => ⟨sr.1, normText sr.2⟩)) ∧
      (splitTurns text).length = (splitlines text).length) ∧
    (isBlank text = false →
      (∀ l ∈ splitlines text, matchSpeaker (rstripChars l) = none) →
      splitTurns text = [⟨"Unknown", normText text⟩]) := by
  constructor
  · intro hall
    have hmap : ∀ l ∈ (splitlines text).map rstripChars, speakerLineNB l = true := by
      intro l hl
      rcases List.mem_map.mp hl with ⟨l0, hl0, rfl⟩
      exact hall l0 hl0
    have hlen : splitTurns text = (splitlines text).filterMap
        (fun l => (matchSpeaker (rstripChars l)).map (fun sr => ⟨sr.1, normText sr.2⟩)) → 
        (splitTurns text).length = (splitlines text).length := by
      intro hfm
      rw [hfm]
      apply List.filterMap_length_eq_length.mpr
      intro l hl
      have hx := hall l hl
      rw [speakerLineNB] at hx
      cases hm2 : matchSpeaker (rstripChars l) with
      | none => rw [hm2] at hx; simp at hx
      | some sr2 => simp
    cases hsl : (splitlines text).map rstripChars with
    | nil =>
      have hnil : splitlines text = [] := by
        cases hs : splitlines text
        · rfl
        · rw [hs] at hsl; simp at hsl
      have htext : text = [] := (splitlines_eq_nil_iff text).mp hnil
      subst htext
      refine ⟨?_, ?_⟩
      · show splitTurns [] = [].filterMap _
        rfl
      · rfl
    | cons l0 ls0 =>
      have hsome : ∃ sr, matchSpeaker l0 = some sr ∧ isBlank sr.2 = false := by
        have hl0 := hmap l0 (by rw [hsl]; simp)
        rw [speakerLineNB] at hl0
        cases hm : matchSpeaker l0 with
        | none => rw [hm] at hl0; simp at hl0
        | some sr =>
          rw [hm] at hl0
          exact ⟨sr, rfl, by simpa using hl0⟩
      obtain ⟨sr, hm, hrest⟩ := hsome
      have hts : splitTurnsGo "Unknown" [] ((splitlines text).map rstripChars)
          = ((splitlines text).map rstripChars).filterMap
            (fun l => (matchSpeaker l).map (fun sr => ⟨sr.1, normText sr.2⟩)) := by
        rw [hsl, splitTurnsGo, hm]
        dsimp only
        rw [if_pos (show isBlank [] = true from rfl)]
        rw [splitTurnsGo_all_speaker ls0 (fun x hx => hmap x (by rw [hsl]; simp [hx]))
          sr.1 sr.2 hrest]
        simp [hm]
      have hne : ((splitlines text).filterMap
          (fun l => (matchSpeaker (rstripChars l)).map (fun sr => ⟨sr.1, normText sr.2⟩)) :
          List Turn) ≠ [] := by
        have hmem : l0 ∈ (splitlines text).map rstripChars := by rw [hsl]; simp
        rcases List.mem_map.mp hmem with ⟨lorig, hlorig, hlr⟩
        intro hnil
        have hmem2 : (⟨sr.1, normText sr.2⟩ : Turn) ∈ ((splitlines text).filterMap
            (fun l => (matchSpeaker (rstripChars l)).map (fun sr => ⟨sr.1, normText sr.2⟩))) :=
          List.mem_filterMap.mpr ⟨lorig, hlorig, by rw [hlr, hm]; simp⟩
        rw [hnil] at hmem2
        simp at hmem2
      have hfm : splitTurns text = (splitlines text).filterMap
          (fun l => (matchSpeaker (rstripChars l)).map (fun sr => ⟨sr.1, normText sr.2⟩)) := by
        rw [splitTurns]
        simp only [hts, List.filterMap_map]
        rw [if_neg (by
          intro hcontra
          rw [Bool.and_eq_true] at hcontra
          exact hne (List.isEmpty_iff.mp hcontra.1))]
        rfl
      exact ⟨hfm, hlen hfm⟩
  · intro hnb hns
    have hlines : ∀ l ∈ (splitlines text).map rstripChars, matchSpeaker l = none := by
      intro l hl
      rcases List.mem_map.mp hl with ⟨l0, hl0, rfl⟩
      exact hns l0 hl0
    have hgo := splitTurnsGo_no_speaker ((splitlines text).map rstripChars) hlines "Unknown" []
    rw [List.nil_append] at hgo
    have hwords : wordsOf (((splitlines text).map rstripChars).flatMap (fun l => '\n' :: l))
        = wordsOf text := by
      rw [wordsOf_flatMap_newline, wordsOf_flatMap_rstrip, splitlines_wordsOf]
    have hblank : isBlank (((splitlines text).map rstripChars).flatMap (fun l => '\n' :: l))
        = false := by
      cases hb : isBlank (((splitlines text).map rstripChars).flatMap (fun l => '\n' :: l))
      · rfl
      · have h1 := (wordsOf_eq_nil_iff_isBlank _).mpr hb
        rw [hwords] at h1
        have h2 := (wordsOf_eq_nil_iff_isBlank text).mp h1
        rw [hnb] at h2
        simp at h2
    rw [hblank] at hgo
    simp only [Bool.false_eq_true, if_false] at hgo
    have hnorm : normText (((splitlines text).map rstripChars).flatMap (fun l => '\n' :: l))
        = normText text := normText_congr hwords
    rw [splitTurns]
    simp only [hgo, hnorm]
    simp

theorem turn_splitting_shapes_witness :
    (∀ l ∈ splitlines "Tutor: hi\nStudent: 2+2".data, speakerLineNB (rstripChars l) = true) ∧
    (splitTurns "Tutor: hi\nStudent: 2+2".data
      = (splitlines "Tutor: hi\nStudent: 2+2".data).filterMap
        (fun l => (matchSpeaker (rstripChars l)).map (fun sr => ⟨sr.1, normText sr.2⟩)) ∧
      (splitTurns "Tutor: hi\nStudent: 2+2".data).length
        = (splitlines "Tutor: hi\nStudent: 2+2".data).length) ∧
    isBlank "just notes\nmore notes".data = false ∧
    (∀ l ∈ splitlines "just notes\nmore notes".data, matchSpeaker (rstripChars l) = none) ∧
    splitTurns "just notes\nmore notes".data
      = [⟨"Unknown", normText "just notes\nmore notes".data⟩] :=
  ⟨by decide, (turn_splitting_shapes _).1 (by decide), by decide, by decide,
    (turn_splitting_shapes _).2 (by decide) (by decide)⟩


end TutorBoard
